import Mathlib

/-!
Verification of the 24-puzzle A* solver (HW2_InformedSearch.py).

The Python source is shallowly embedded: board states are lists of natural
numbers, the frontier is a list of priority entries popped by minimal
(f, counter) in lexicographic order (the heapq behaviour), the best-known
cost dictionary is an association list, and the search loop is a fueled
recursion with the wall-clock timeout abstracted as a boolean oracle
indexed by the iteration number.
-/

namespace HW2

/-- Board width, mirroring N = 5. -/
def N : Nat := 5

/-- Number of cells, mirroring SIZE = N * N. -/
def SIZE : Nat := N * N

/-- Goal configuration, mirroring GOAL = tuple(list(range(1, SIZE)) + [0]). -/
def GOAL : List Nat := List.range' 1 (SIZE - 1) ++ [0]

/-- Goal position of a tile, mirroring the GOAL_POS dictionary built from
enumerate(GOAL): the tile found at index i of GOAL is mapped to
(i / N, i % N). -/
def GOAL_POS (tile : Nat) : Nat × Nat :=
  (GOAL.indexOf tile / N, GOAL.indexOf tile % N)

/-- Inner double loop of inversion_count over the blank-free array. -/
def inversionsFrom : List Nat → Nat
  | [] => 0
  | x :: rest => rest.countP (fun y => decide (y < x)) + inversionsFrom rest

/-- Mirrors inversion_count: count inversions of the subsequence of nonzero
tiles. -/
def inversion_count (state : List Nat) : Nat :=
  inversionsFrom (state.filter (fun x => decide (x ≠ 0)))

/-- Mirrors is_solvable: inversion count is even. -/
def is_solvable (state : List Nat) : Bool :=
  inversion_count state % 2 == 0

/-- Mirrors h1_misplaced: number of indices holding a nonzero tile that
differs from the goal tile at that index. -/
def h1_misplaced (state : List Nat) : Nat :=
  ((List.range SIZE).map (fun i =>
    if state.getD i 0 ≠ 0 ∧ state.getD i 0 ≠ GOAL.getD i 0 then 1 else 0)).sum

/-- Manhattan contribution of one tile sitting at a given index. -/
def manhattanTerm (index tile : Nat) : Nat :=
  let r := index / N
  let c := index % N
  let g := GOAL_POS tile
  ((r : Int) - (g.1 : Int)).natAbs + ((c : Int) - (g.2 : Int)).natAbs

/-- Mirrors h2_manhattan: sum of Manhattan distances of the nonzero tiles,
iterating over enumerate(state). -/
def h2_manhattan (state : List Nat) : Nat :=
  (state.enum.map (fun p => if p.2 = 0 then 0 else manhattanTerm p.1 p.2)).sum

/-- The simultaneous swap new_state[b], new_state[j] = new_state[j],
new_state[b] performed on a copy of the state. -/
def swapTiles (state : List Nat) (blank_index new_index : Nat) : List Nat :=
  (state.set blank_index (state.getD new_index 0)).set new_index
    (state.getD blank_index 0)

/-- Mirrors generate_successors: the legal one-move neighbours in the fixed
order Up, Down, Left, Right. -/
def generate_successors (state : List Nat) (blank_index : Nat) :
    List (List Nat × Nat × String) :=
  let r := blank_index / N
  let c := blank_index % N
  let swap := fun (nr nc : Nat) (direction : String) =>
    (swapTiles state blank_index (nr * N + nc), nr * N + nc, direction)
  (if r > 0 then [swap (r - 1) c "U"] else []) ++
  (if r < N - 1 then [swap (r + 1) c "D"] else []) ++
  (if c > 0 then [swap r (c - 1) "L"] else []) ++
  (if c < N - 1 then [swap r (c + 1) "R"] else [])

/-- Mirrors the Node dataclass.  The Python code either sets both parent and
move or neither, so the two optional fields are fused into the two
constructors. -/
inductive Node where
  | root (state : List Nat) (blank_index : Nat) (g : Nat) (h : Nat)
  | child (state : List Nat) (blank_index : Nat) (g : Nat) (h : Nat)
      (move : String) (parent : Node)
deriving DecidableEq

/-- The state field of a node. -/
def Node.state : Node → List Nat
  | .root s _ _ _ => s
  | .child s _ _ _ _ _ => s

/-- The blank_index field of a node. -/
def Node.blank_index : Node → Nat
  | .root _ b _ _ => b
  | .child _ b _ _ _ _ => b

/-- The g field of a node. -/
def Node.g : Node → Nat
  | .root _ _ g _ => g
  | .child _ _ g _ _ _ => g

/-- The h field of a node. -/
def Node.h : Node → Nat
  | .root _ _ _ hv => hv
  | .child _ _ _ hv _ _ => hv

/-- Mirrors the f property: f = g + h. -/
def Node.f (n : Node) : Nat := n.g + n.h

/-- The while loop of reconstruct_path: collect move labels walking up the
parent chain. -/
def collectMoves : Node → List String
  | .root _ _ _ _ => []
  | .child _ _ _ _ move parent => move :: collectMoves parent

/-- Mirrors reconstruct_path: moves collected from goal to start, then
reversed. -/
def reconstruct_path (node : Node) : List String :=
  (collectMoves node).reverse

/-- Mirrors the PriorityNode dataclass ordered by (f, counter); the node
field does not take part in the comparison. -/
structure PriorityNode where
  f : Nat
  counter : Nat
  node : Node
deriving DecidableEq

/-- The heapq ordering on priority entries: lexicographic on (f, counter). -/
def pnLe (a b : PriorityNode) : Prop :=
  a.f < b.f ∨ (a.f = b.f ∧ a.counter ≤ b.counter)

instance (a b : PriorityNode) : Decidable (pnLe a b) := by
  unfold pnLe; infer_instance

/-- heapq heappop: remove the entry minimal in the (f, counter) order. -/
def popMin : List PriorityNode → Option (PriorityNode × List PriorityNode)
  | [] => none
  | x :: xs =>
    match popMin xs with
    | none => some (x, [])
    | some (m, rest) =>
      if pnLe x m then some (x, xs) else some (m, x :: rest)

/-- Lookup in the best_g dictionary, modelled as an association list. -/
def dictLookup (m : List (List Nat × Nat)) (k : List Nat) : Option Nat :=
  match m with
  | [] => none
  | kv :: rest => if kv.1 = k then some kv.2 else dictLookup rest k

/-- Assignment best_g[k] = v on the association list model. -/
def dictInsert (m : List (List Nat × Nat)) (k : List Nat) (v : Nat) :
    List (List Nat × Nat) :=
  match m with
  | [] => [(k, v)]
  | kv :: rest => if kv.1 = k then (k, v) :: rest else kv :: dictInsert rest k v

/-- The statistics dictionary returned by astar. -/
structure Stats where
  status : String
  expanded : Nat
  generated : Nat
  max_frontier : Nat
deriving DecidableEq

/-- The mutable local variables of the astar loop. -/
structure LoopState where
  open_list : List PriorityNode
  best_g : List (List Nat × Nat)
  expanded : Nat
  generated : Nat
  max_frontier : Nat
  counter : Nat
deriving DecidableEq

/-- Build the statistics record from the current counters. -/
def mkStats (status : String) (st : LoopState) : Stats :=
  ⟨status, st.expanded, st.generated, st.max_frontier⟩

/-- Body of the for loop over generated successors: skip when the recorded
cost is at most new_g, otherwise record new_g, build the child node and push
it with key f = new_g + heuristic(new_state) and the next counter. -/
def processSuccessor (hf : List Nat → Nat) (current : Node)
    (st : LoopState) (succ : List Nat × Nat × String) : LoopState :=
  let new_g := current.g + 1
  let skip : Bool :=
    match dictLookup st.best_g succ.1 with
    | some v => decide (v ≤ new_g)
    | none => false
  if skip then st
  else
    let new_node : Node :=
      Node.child succ.1 succ.2.1 new_g (hf succ.1) succ.2.2 current
    { st with
      best_g := dictInsert st.best_g succ.1 new_g
      open_list := st.open_list ++ [⟨new_node.f, st.counter, new_node⟩]
      counter := st.counter + 1
      generated := st.generated + 1 }

/-- The whole for loop over the successors of the current node. -/
def expandBody (hf : List Nat → Nat) (current : Node) (st : LoopState) :
    LoopState :=
  (generate_successors current.state current.blank_index).foldl
    (processSuccessor hf current) st

/-- Result of one iteration of the while loop: either the loop continues
with an updated state, or astar returns. -/
inductive StepResult where
  | next (st : LoopState)
  | done (res : Option Node × Stats)

/-- One iteration of the astar while loop: emptiness check, timeout check,
pop, goal test, expansion, frontier high-water update. -/
def astarStep (hf : List Nat → Nat) (timedOut : Nat → Bool) (iter : Nat)
    (st : LoopState) : StepResult :=
  if st.open_list.isEmpty then .done (none, mkStats "failure" st)
  else if timedOut iter then .done (none, mkStats "timeout" st)
  else
    match popMin st.open_list with
    | none => .done (none, mkStats "failure" st)
    | some (pn, rest) =>
      let current := pn.node
      if current.state = GOAL then .done (some current, mkStats "success" st)
      else
        let st1 : LoopState :=
          { st with open_list := rest, expanded := st.expanded + 1 }
        let st2 := expandBody hf current st1
        .next { st2 with
                max_frontier := max st2.max_frontier st2.open_list.length }

/-- The astar while loop, fueled; none means the fuel ran out, which is an
artifact of the embedding and never a behaviour of the program. -/
def astarLoop (hf : List Nat → Nat) (timedOut : Nat → Bool) :
    Nat → Nat → LoopState → Option (Option Node × Stats)
  | 0, _, _ => none
  | fuel + 1, iter, st =>
    match astarStep hf timedOut iter st with
    | .done r => some r
    | .next st' => astarLoop hf timedOut fuel (iter + 1) st'

/-- The loop state set up by astar before entering the while loop. -/
def initLoopState (start : List Nat) (hf : List Nat → Nat) : LoopState :=
  let start_node := Node.root start (start.indexOf 0) 0 (hf start)
  { open_list := [⟨start_node.f, 0, start_node⟩]
    best_g := [(start, 0)]
    expanded := 0
    generated := 1
    max_frontier := 1
    counter := 1 }

/-- Mirrors astar: initialisation followed by the while loop. -/
def astar (start : List Nat) (hf : List Nat → Nat) (timedOut : Nat → Bool)
    (fuel : Nat) : Option (Option Node × Stats) :=
  astarLoop hf timedOut fuel 0 (initLoopState start hf)

/-- Run a given number of loop iterations that all continue; none when the
loop returns earlier. -/
def runSteps (hf : List Nat → Nat) (timedOut : Nat → Bool) :
    Nat → Nat → LoopState → Option LoopState
  | 0, _, st => some st
  | n + 1, iter, st =>
    match astarStep hf timedOut iter st with
    | .done _ => none
    | .next st' => runSteps hf timedOut n (iter + 1) st'

/-- Semantics of one move label applied to a state: the unique successor of
the state (with the blank located at the first index holding 0) carrying
that label. -/
def applyMove (s : List Nat) (m : String) : Option (List Nat) :=
  match (generate_successors s (s.indexOf 0)).find? (fun t => t.2.2 == m) with
  | some t => some t.1
  | none => none

/-- Semantics of a move sequence applied to a state. -/
def applyMoves : List Nat → List String → Option (List Nat)
  | s, [] => some s
  | s, m :: ms =>
    match applyMove s m with
    | some s' => applyMoves s' ms
    | none => none

/-- The move labels of a parent chain in forward, start-to-goal order,
excluding the parentless root; this is the order the specification
describes. -/
def forwardMoves : Node → List String
  | .root _ _ _ _ => []
  | .child _ _ _ _ move parent => forwardMoves parent ++ [move]

/-- The g discipline of nodes built by astar: the root has g = 0 and every
child has the g of its parent plus one. -/
def gConsistent : Node → Prop
  | .root _ _ g _ => g = 0
  | .child _ _ g _ _ parent => g = parent.g + 1 ∧ gConsistent parent

/-- Structural well-formedness of a node produced by the search: the chain
bottoms out at the start node built by astar, every link is a successor
produced by generate_successors, g increases by one per link and h is the
value of the supplied heuristic. -/
def Node.valid (start : List Nat) (hf : List Nat → Nat) : Node → Prop
  | .root s b g hv =>
      s = start ∧ b = start.indexOf 0 ∧ g = 0 ∧ hv = hf start
  | .child s b g hv move parent =>
      Node.valid start hf parent ∧
      (s, b, move) ∈ generate_successors parent.state parent.blank_index ∧
      g = parent.g + 1 ∧ hv = hf s

/-- True when the entry about to be popped from the frontier carries a g
that differs from the best_g record of its state (and is not the goal, so
the loop would expand it). -/
def poppedStale (st : LoopState) : Bool :=
  match popMin st.open_list with
  | some (pn, _) =>
    decide (pn.node.state ≠ GOAL) &&
      decide (dictLookup st.best_g pn.node.state ≠ some pn.node.g)
  | none => false

/-- Bounded search for an iteration of the astar loop that pops a stale
entry, stepping with astarStep itself. -/
def stalePopSearch (hf : List Nat → Nat) (timedOut : Nat → Bool) :
    Nat → Nat → LoopState → Bool
  | 0, _, _ => false
  | fuel + 1, iter, st =>
    poppedStale st ||
      match astarStep hf timedOut iter st with
      | .done _ => false
      | .next st' => stalePopSearch hf timedOut fuel (iter + 1) st'

/-! ### Basic facts about the constants -/

theorem N_eq : N = 5 := rfl

theorem SIZE_eq : SIZE = 25 := rfl

theorem GOAL_length : GOAL.length = 25 := by decide

theorem GOAL_getD : ∀ i < 25, GOAL.getD i 0 = if i = 24 then 0 else i + 1 := by
  decide

theorem GOAL_indexOf_pos : ∀ t < 25, 0 < t → GOAL.indexOf t = t - 1 := by
  decide

theorem GOAL_perm : GOAL.Perm (List.range SIZE) := by decide

/-! ### Swap lemmas -/

theorem swapTiles_length (s : List Nat) (b j : Nat) :
    (swapTiles s b j).length = s.length := by
  simp [swapTiles]

theorem swapTiles_getD_fst {s : List Nat} {b j : Nat} (hb : b < s.length)
    (hbj : b ≠ j) : (swapTiles s b j).getD b 0 = s.getD j 0 := by
  unfold swapTiles
  rw [List.getD_eq_getElem?_getD, List.getElem?_set_ne (fun hc => hbj hc.symm),
    List.getElem?_set_self hb]
  simp [List.getD_eq_getElem?_getD]

theorem swapTiles_getD_snd {s : List Nat} {b j : Nat} (hj : j < s.length) :
    (swapTiles s b j).getD j 0 = s.getD b 0 := by
  unfold swapTiles
  rw [List.getD_eq_getElem?_getD, List.getElem?_set_self (by simpa using hj)]
  rfl

theorem swapTiles_getD_other {s : List Nat} {b j i : Nat} (hib : i ≠ b)
    (hij : i ≠ j) : (swapTiles s b j).getD i 0 = s.getD i 0 := by
  unfold swapTiles
  rw [List.getD_eq_getElem?_getD, List.getElem?_set_ne (fun hc => hij hc.symm),
    List.getElem?_set_ne (fun hc => hib hc.symm), List.getD_eq_getElem?_getD]

theorem swapTiles_count {s : List Nat} {b j : Nat} (hb : b < s.length)
    (hj : j < s.length) (hbj : b ≠ j) (a : Nat) :
    (swapTiles s b j).count a = s.count a := by
  unfold swapTiles
  have hb' : b < (s.set b (s.getD j 0)).length := by simpa using hb
  have hj' : j < (s.set b (s.getD j 0)).length := by simpa using hj
  rw [List.count_set _ _ _ _ hj', List.count_set _ _ _ _ hb]
  have h1 : (s.set b (s.getD j 0))[j] = s[j] := by
    rw [List.getElem_set_ne (fun hc => hbj hc)]
  have h2 : s.getD j 0 = s[j] := by
    rw [List.getD_eq_getElem?_getD, List.getElem?_eq_getElem hj]; rfl
  have h3 : s.getD b 0 = s[b] := by
    rw [List.getD_eq_getElem?_getD, List.getElem?_eq_getElem hb]; rfl
  have hmb : 0 < s.count (s[b]) := List.count_pos_iff.mpr (List.getElem_mem hb)
  have hmj : 0 < s.count (s[j]) := List.count_pos_iff.mpr (List.getElem_mem hj)
  rw [h1, h2, h3]
  have hba : s[b] = a → 1 ≤ s.count a := fun e => by rw [← e]; exact hmb
  have hja : s[j] = a → 1 ≤ s.count a := fun e => by rw [← e]; exact hmj
  simp only [beq_iff_eq]
  split_ifs <;>
    (try have k1 := hba (by assumption)) <;>
    (try have k2 := hja (by assumption)) <;>
    omega

theorem swapTiles_perm {s : List Nat} {b j : Nat} (hb : b < s.length)
    (hj : j < s.length) (hbj : b ≠ j) : (swapTiles s b j).Perm s := by
  rw [List.perm_iff_count]
  intro a
  exact swapTiles_count hb hj hbj a

/-! ### Characterisation of generate_successors -/

theorem mem_generate_successors {s : List Nat} {b : Nat}
    {t : List Nat × Nat × String} :
    t ∈ generate_successors s b ↔
      (0 < b / 5 ∧ t = (swapTiles s b (b - 5), b - 5, "U")) ∨
      (b / 5 < 4 ∧ t = (swapTiles s b (b + 5), b + 5, "D")) ∨
      (0 < b % 5 ∧ t = (swapTiles s b (b - 1), b - 1, "L")) ∨
      (b % 5 < 4 ∧ t = (swapTiles s b (b + 1), b + 1, "R")) := by
  have hmem : ∀ (P : Prop) [Decidable P] (a : List Nat × Nat × String),
      (t ∈ if P then [a] else []) ↔ P ∧ t = a := by
    intro P _ a
    split <;> simp_all
  have hU : 0 < b / 5 → (b / 5 - 1) * 5 + b % 5 = b - 5 := by omega
  have hD : (b / 5 + 1) * 5 + b % 5 = b + 5 := by omega
  have hL : 0 < b % 5 → b / 5 * 5 + (b % 5 - 1) = b - 1 := by omega
  have hR : b % 5 < 5 - 1 → b / 5 * 5 + (b % 5 + 1) = b + 1 := by omega
  simp only [generate_successors, N_eq, List.mem_append, hmem]
  constructor
  · rintro (((⟨hc, rfl⟩ | ⟨hc, rfl⟩) | ⟨hc, rfl⟩) | ⟨hc, rfl⟩)
    · exact Or.inl ⟨hc, by rw [hU hc]⟩
    · exact Or.inr (Or.inl ⟨by omega, by rw [hD]⟩)
    · exact Or.inr (Or.inr (Or.inl ⟨hc, by rw [hL hc]⟩))
    · exact Or.inr (Or.inr (Or.inr ⟨by omega, by rw [hR hc]⟩))
  · rintro (⟨hc, rfl⟩ | ⟨hc, rfl⟩ | ⟨hc, rfl⟩ | ⟨hc, rfl⟩)
    · exact Or.inl (Or.inl (Or.inl ⟨hc, by rw [hU hc]⟩))
    · exact Or.inl (Or.inl (Or.inr ⟨by omega, by rw [hD]⟩))
    · exact Or.inl (Or.inr ⟨hc, by rw [hL hc]⟩)
    · exact Or.inr ⟨by omega, by rw [hR hc]⟩

/-- A state that is a permutation of the tile multiset 0..24. -/
def ValidState (s : List Nat) : Prop := s.Perm (List.range SIZE)

instance (s : List Nat) : Decidable (ValidState s) := by
  unfold ValidState
  infer_instance

theorem ValidState.length {s : List Nat} (hs : ValidState s) : s.length = 25 := by
  simpa using hs.length_eq

theorem ValidState.nodup {s : List Nat} (hs : ValidState s) : s.Nodup :=
  (List.nodup_range _).perm (List.Perm.symm hs)

theorem ValidState.getD_lt {s : List Nat} (hs : ValidState s) {i : Nat}
    (hi : i < 25) : s.getD i 0 < 25 := by
  have hl : i < s.length := by rw [hs.length]; exact hi
  have hmem : s.getD i 0 ∈ s := by
    rw [List.getD_eq_getElem?_getD, List.getElem?_eq_getElem hl]
    exact List.getElem_mem hl
  have := hs.mem_iff.mp hmem
  simpa using this

theorem ValidState.getD_ne {s : List Nat} (hs : ValidState s) {i j : Nat}
    (hi : i < 25) (hj : j < 25) (hij : i ≠ j) : s.getD i 0 ≠ s.getD j 0 := by
  have hi' : i < s.length := by rw [hs.length]; exact hi
  have hj' : j < s.length := by rw [hs.length]; exact hj
  rw [List.getD_eq_getElem?_getD, List.getElem?_eq_getElem hi',
    List.getD_eq_getElem?_getD, List.getElem?_eq_getElem hj']
  intro hc
  exact hij ((hs.nodup.getElem_inj_iff).mp (by simpa using hc))

/-- Unpacked form of a successor produced by generate_successors: the swap
target is a cell distinct from the blank, inside the board whenever the
blank index is, and the triple is the swap of those two cells. -/
theorem succ_unpack {s : List Nat} {b : Nat} {t : List Nat × Nat × String}
    (hb : b < 25) (ht : t ∈ generate_successors s b) :
    t.2.1 < 25 ∧ t.2.1 ≠ b ∧ t.1 = swapTiles s b t.2.1 := by
  rcases mem_generate_successors.mp ht with ⟨hc, rfl⟩ | ⟨hc, rfl⟩ | ⟨hc, rfl⟩ |
    ⟨hc, rfl⟩ <;> dsimp only <;> exact ⟨by omega, by omega, rfl⟩

/-- The swap target of a successor is determined by its move label: the
cell directly above, below, left or right of the blank, with the board
border guards of the source. -/
theorem succ_label_target {s : List Nat} {b : Nat}
    {t : List Nat × Nat × String} (ht : t ∈ generate_successors s b) :
    (t.2.2 = "U" ∧ t.2.1 + 5 = b) ∨ (t.2.2 = "D" ∧ t.2.1 = b + 5) ∨
    (t.2.2 = "L" ∧ t.2.1 + 1 = b ∧ 0 < b % 5) ∨
    (t.2.2 = "R" ∧ t.2.1 = b + 1 ∧ b % 5 < 4) := by
  rcases mem_generate_successors.mp ht with ⟨hc, rfl⟩ | ⟨hc, rfl⟩ | ⟨hc, rfl⟩ |
    ⟨hc, rfl⟩ <;> dsimp only
  · exact Or.inl ⟨rfl, by omega⟩
  · exact Or.inr (Or.inl ⟨rfl, rfl⟩)
  · exact Or.inr (Or.inr (Or.inl ⟨rfl, by omega, hc⟩))
  · exact Or.inr (Or.inr (Or.inr ⟨rfl, rfl, by omega⟩))

/-- The swap target of a successor is grid-adjacent to the blank cell:
same row and neighbouring column, or same column and neighbouring row. -/
theorem succ_grid_adjacent {s : List Nat} {b : Nat}
    {t : List Nat × Nat × String} (ht : t ∈ generate_successors s b) :
    (t.2.1 / 5 = b / 5 ∧ (t.2.1 + 1 = b ∨ t.2.1 = b + 1)) ∨
    (t.2.1 % 5 = b % 5 ∧ (t.2.1 + 5 = b ∨ t.2.1 = b + 5)) := by
  rcases mem_generate_successors.mp ht with ⟨hc, rfl⟩ | ⟨hc, rfl⟩ | ⟨hc, rfl⟩ |
    ⟨hc, rfl⟩ <;> dsimp only
  · exact Or.inr ⟨by omega, Or.inl (by omega)⟩
  · exact Or.inr ⟨by omega, Or.inr rfl⟩
  · exact Or.inl ⟨by omega, Or.inl (by omega)⟩
  · exact Or.inl ⟨by omega, Or.inr rfl⟩

/-- The labels of the successors, in order, are exactly the legal members
of U, D, L, R. -/
theorem generate_successors_labels (s : List Nat) (b : Nat) :
    (generate_successors s b).map (fun t => t.2.2) =
      (if 0 < b / 5 then ["U"] else []) ++ (if b / 5 < 4 then ["D"] else []) ++
      (if 0 < b % 5 then ["L"] else []) ++ (if b % 5 < 4 then ["R"] else []) := by
  simp only [generate_successors, N_eq, List.map_append]
  split_ifs <;> simp_all

theorem generate_successors_length {s : List Nat} {b : Nat} (hb : b < 25) :
    2 ≤ (generate_successors s b).length ∧
      (generate_successors s b).length ≤ 4 := by
  have hlen : (generate_successors s b).length =
      ((generate_successors s b).map (fun t => t.2.2)).length := by
    rw [List.length_map]
  rw [generate_successors_labels] at hlen
  by_cases h1 : 0 < b / 5 <;> by_cases h2 : b / 5 < 4 <;>
    by_cases h3 : 0 < b % 5 <;> by_cases h4 : b % 5 < 4 <;>
    simp [h1, h2, h3, h4] at hlen <;> omega

/-- C3: on a permutation state with the blank at the given index,
generate_successors returns between 2 and 4 tuples; each result is a
permutation of the same multiset obtained by swapping the blank cell with
one grid-adjacent cell (same row and neighbouring column, or same column
and neighbouring row, the target determined by the move label), all
remaining cells unchanged and the two swapped cells really changed; and
the move labels appear in the fixed order U, D, L, R restricted to the
legal directions. -/
theorem generate_successors_spec (s : List Nat) (b : Nat)
    (hperm : ValidState s) (hb : b < 25) (hblank : s.getD b 0 = 0) :
    (2 ≤ (generate_successors s b).length ∧
      (generate_successors s b).length ≤ 4) ∧
    ((generate_successors s b).map (fun t => t.2.2)).Sublist
      ["U", "D", "L", "R"] ∧
    (generate_successors s b).map (fun t => t.2.2) =
      (if 0 < b / 5 then ["U"] else []) ++ (if b / 5 < 4 then ["D"] else []) ++
      (if 0 < b % 5 then ["L"] else []) ++ (if b % 5 < 4 then ["R"] else []) ∧
    ∀ t ∈ generate_successors s b,
      t.1.Perm s ∧ t.2.1 < 25 ∧ t.2.1 ≠ b ∧
      ((t.2.1 / 5 = b / 5 ∧ (t.2.1 + 1 = b ∨ t.2.1 = b + 1)) ∨
        (t.2.1 % 5 = b % 5 ∧ (t.2.1 + 5 = b ∨ t.2.1 = b + 5))) ∧
      ((t.2.2 = "U" ∧ t.2.1 + 5 = b) ∨ (t.2.2 = "D" ∧ t.2.1 = b + 5) ∨
        (t.2.2 = "L" ∧ t.2.1 + 1 = b ∧ 0 < b % 5) ∨
        (t.2.2 = "R" ∧ t.2.1 = b + 1 ∧ b % 5 < 4)) ∧
      t.1.getD b 0 = s.getD t.2.1 0 ∧ t.1.getD t.2.1 0 = s.getD b 0 ∧
      t.1.getD b 0 ≠ s.getD b 0 ∧ t.1.getD t.2.1 0 ≠ s.getD t.2.1 0 ∧
      ∀ i, i ≠ b → i ≠ t.2.1 → t.1.getD i 0 = s.getD i 0 := by
  have hslen : s.length = 25 := hperm.length
  refine ⟨generate_successors_length hb, ?_, generate_successors_labels s b, ?_⟩
  · rw [generate_successors_labels]
    by_cases h1 : 0 < b / 5 <;> by_cases h2 : b / 5 < 4 <;>
      by_cases h3 : 0 < b % 5 <;> by_cases h4 : b % 5 < 4 <;>
      simp [h1, h2, h3, h4]
  · intro t ht
    obtain ⟨hj, hjb, hswap⟩ := succ_unpack hb ht
    have hb' : b < s.length := by omega
    have hj' : t.2.1 < s.length := by omega
    have hvne : s.getD t.2.1 0 ≠ s.getD b 0 := hperm.getD_ne hj hb hjb
    refine ⟨hswap ▸ swapTiles_perm hb' hj' (fun hc => hjb hc.symm), hj, hjb,
      succ_grid_adjacent ht, succ_label_target ht, ?_, ?_, ?_, ?_, ?_⟩
    · rw [hswap, swapTiles_getD_fst hb' (fun hc => hjb hc.symm)]
    · rw [hswap, swapTiles_getD_snd hj']
    · rw [hswap, swapTiles_getD_fst hb' (fun hc => hjb hc.symm)]
      exact hvne
    · rw [hswap, swapTiles_getD_snd hj']
      exact fun hc => hvne hc.symm
    · intro i hib hij
      rw [hswap, swapTiles_getD_other hib hij]

/-- The set of index pairs i < j of a list whose entries are out of order;
this is the way the specification describes the inversion count. -/
def inversionPairs (arr : List Nat) : Finset (Nat × Nat) :=
  (Finset.range arr.length ×ˢ Finset.range arr.length).filter
    (fun p => p.1 < p.2 ∧ arr.getD p.2 0 < arr.getD p.1 0)

theorem countP_lt_eq_sum (x : Nat) (xs : List Nat) :
    xs.countP (fun y => decide (y < x)) =
      ∑ j ∈ Finset.range xs.length, if xs.getD j 0 < x then 1 else 0 := by
  induction xs with
  | nil => simp
  | cons y ys ih =>
    rw [List.countP_cons, List.length_cons, Finset.sum_range_succ']
    simp only [List.getD_cons_succ, List.getD_cons_zero]
    rw [← ih]
    by_cases hy : y < x <;> simp [hy]

theorem inversionPairs_card (l : List Nat) : (inversionPairs l).card =
    ∑ i ∈ Finset.range l.length, ∑ j ∈ Finset.range l.length,
      if i < j ∧ l.getD j 0 < l.getD i 0 then 1 else 0 := by
  rw [inversionPairs, Finset.card_filter, Finset.sum_product]

theorem inversionsFrom_eq_card (arr : List Nat) :
    inversionsFrom arr = (inversionPairs arr).card := by
  induction arr with
  | nil => simp [inversionsFrom, inversionPairs]
  | cons x xs ih =>
    rw [inversionsFrom, inversionPairs_card, List.length_cons,
      Finset.sum_range_succ']
    have hrow0 : (∑ j ∈ Finset.range (xs.length + 1),
        if 0 < j ∧ (x :: xs).getD j 0 < (x :: xs).getD 0 0 then 1 else 0) =
        xs.countP (fun y => decide (y < x)) := by
      rw [Finset.sum_range_succ', countP_lt_eq_sum]
      simp
    have hrows : (∑ i ∈ Finset.range xs.length,
        ∑ j ∈ Finset.range (xs.length + 1),
          if i + 1 < j ∧ (x :: xs).getD j 0 < (x :: xs).getD (i + 1) 0
            then 1 else 0) = inversionsFrom xs := by
      rw [ih, inversionPairs_card]
      refine Finset.sum_congr rfl (fun i _ => ?_)
      rw [Finset.sum_range_succ']
      simp [Nat.succ_lt_succ_iff]
    rw [hrow0, hrows]
    omega

theorem inversion_count_eq_card (s : List Nat) :
    inversion_count s =
      (inversionPairs (s.filter (fun x => decide (x ≠ 0)))).card := by
  rw [inversion_count, inversionsFrom_eq_card]

/-- C4: is_solvable is true exactly when the number of out-of-order index
pairs of the blank-free subsequence is even, and the goal itself is
solvable with zero inversions. -/
theorem is_solvable_spec (s : List Nat) (hperm : ValidState s) :
    (is_solvable s = true ↔
      (inversionPairs (s.filter (fun x => decide (x ≠ 0)))).card % 2 = 0) ∧
    is_solvable GOAL = true ∧ inversion_count GOAL = 0 := by
  refine ⟨?_, by decide, by decide⟩
  rw [is_solvable, beq_iff_eq, inversion_count_eq_card]

/-! ### Sum forms of the two heuristics -/

theorem sum_map_range (f : Nat → Nat) (n : Nat) :
    ((List.range n).map f).sum = ∑ i ∈ Finset.range n, f i := by
  induction n with
  | zero => simp
  | succ n ih =>
    rw [List.range_succ, Finset.sum_range_succ, List.map_append,
      List.sum_append]
    simp [ih]

theorem h1_eq_sum (s : List Nat) :
    h1_misplaced s = ∑ i ∈ Finset.range 25,
      if s.getD i 0 ≠ 0 ∧ s.getD i 0 ≠ GOAL.getD i 0 then 1 else 0 := by
  rw [h1_misplaced, sum_map_range]
  rfl

theorem h2_eq_sum {s : List Nat} (hlen : s.length = 25) :
    h2_manhattan s = ∑ i ∈ Finset.range 25,
      if s.getD i 0 = 0 then 0 else manhattanTerm i (s.getD i 0) := by
  have henum : s.enum.map
      (fun p => if p.2 = 0 then 0 else manhattanTerm p.1 p.2) =
      (List.range s.length).map
        (fun i => if s.getD i 0 = 0 then 0 else manhattanTerm i (s.getD i 0)) := by
    apply List.ext_getElem
    · simp
    · intro i h1 h2
      have hi : i < s.length := by simpa using h1
      simp only [List.getElem_map, List.enum_eq_enumFrom,
        List.getElem_enumFrom, List.getElem_range, Nat.zero_add]
      rw [List.getD_eq_getElem?_getD, List.getElem?_eq_getElem hi]
      rfl
  rw [h2_manhattan, henum, sum_map_range, hlen]

theorem one_le_manhattanTerm {i t : Nat} (hi : i < 25) (ht : t < 25)
    (ht0 : 0 < t) (hne : t ≠ GOAL.getD i 0) : 1 ≤ manhattanTerm i t := by
  have hidx := GOAL_indexOf_pos t ht ht0
  have hg := GOAL_getD i hi
  rw [hg] at hne
  simp only [manhattanTerm, GOAL_POS, hidx, N_eq]
  by_cases h24 : i = 24
  · rw [if_pos h24] at hne
    omega
  · rw [if_neg h24] at hne
    omega

/-- C5: on permutation states the misplaced-tiles heuristic never exceeds
the Manhattan heuristic, h1 is at most 24 and h2 is non-negative. -/
theorem h1_le_h2 (s : List Nat) (hperm : ValidState s) :
    h1_misplaced s ≤ h2_manhattan s ∧ h1_misplaced s ≤ 24 ∧
      0 ≤ h2_manhattan s := by
  have hlen : s.length = 25 := hperm.length
  refine ⟨?_, ?_, Nat.zero_le _⟩
  · rw [h1_eq_sum, h2_eq_sum hlen]
    refine Finset.sum_le_sum (fun i hi => ?_)
    have hi25 : i < 25 := Finset.mem_range.mp hi
    by_cases h0 : s.getD i 0 = 0
    · rw [if_neg (fun hA => hA.1 h0), if_pos h0]
    · by_cases hgo : s.getD i 0 = GOAL.getD i 0
      · rw [if_neg (fun hA => hA.2 hgo), if_neg h0]
        exact Nat.zero_le _
      · have h1t : 1 ≤ manhattanTerm i (s.getD i 0) :=
          one_le_manhattanTerm hi25 (hperm.getD_lt hi25)
            (Nat.pos_of_ne_zero h0) hgo
        rw [if_pos ⟨h0, hgo⟩, if_neg h0]
        exact h1t
  · have hmem : (0 : Nat) ∈ s := hperm.mem_iff.mpr (by decide)
    have hib : s.indexOf 0 < s.length := List.indexOf_lt_length.mpr hmem
    set ib := s.indexOf 0 with hibdef
    have hib25 : ib < 25 := by omega
    have hblank : s.getD ib 0 = 0 := by
      rw [List.getD_eq_getElem?_getD, List.getElem?_eq_getElem hib]
      exact List.getElem_indexOf hib
    rw [h1_eq_sum]
    have hsplit : ∑ i ∈ Finset.range 25,
        (if s.getD i 0 ≠ 0 ∧ s.getD i 0 ≠ GOAL.getD i 0 then 1 else 0) =
        (if s.getD ib 0 ≠ 0 ∧ s.getD ib 0 ≠ GOAL.getD ib 0 then 1 else 0) +
        ∑ i ∈ (Finset.range 25).erase ib,
          (if s.getD i 0 ≠ 0 ∧ s.getD i 0 ≠ GOAL.getD i 0 then 1 else 0) :=
      (Finset.add_sum_erase _ _ (Finset.mem_range.mpr hib25)).symm
    rw [hsplit, hblank]
    simp only [ne_eq, not_true_eq_false, false_and, if_false, Nat.zero_add]
    calc ∑ i ∈ (Finset.range 25).erase ib,
          (if s.getD i 0 ≠ 0 ∧ s.getD i 0 ≠ GOAL.getD i 0 then 1 else 0)
        ≤ ∑ _i ∈ (Finset.range 25).erase ib, 1 :=
          Finset.sum_le_sum (fun i _ => by split <;> omega)
      _ = 24 := by
          rw [Finset.sum_const, Finset.card_erase_of_mem
            (Finset.mem_range.mpr hib25)]
          simp

/-! ### Consistency of the heuristics -/

theorem succ_adjacent {s : List Nat} {b : Nat} {t : List Nat × Nat × String}
    (ht : t ∈ generate_successors s b) :
    (t.2.1 = b - 5 ∧ 5 ≤ b) ∨ t.2.1 = b + 5 ∨
      (t.2.1 = b - 1 ∧ 0 < b % 5) ∨ (t.2.1 = b + 1 ∧ b % 5 < 4) := by
  rcases mem_generate_successors.mp ht with ⟨hc, rfl⟩ | ⟨hc, rfl⟩ | ⟨hc, rfl⟩ |
    ⟨hc, rfl⟩ <;> dsimp only
  · exact Or.inl ⟨rfl, by omega⟩
  · exact Or.inr (Or.inl rfl)
  · exact Or.inr (Or.inr (Or.inl ⟨rfl, hc⟩))
  · exact Or.inr (Or.inr (Or.inr ⟨rfl, by omega⟩))

theorem manhattanTerm_adjacent {b j : Nat} (t : Nat)
    (hadj : (j = b - 5 ∧ 5 ≤ b) ∨ j = b + 5 ∨
      (j = b - 1 ∧ 0 < b % 5) ∨ (j = b + 1 ∧ b % 5 < 4)) :
    manhattanTerm j t ≤ 1 + manhattanTerm b t := by
  rcases hGP : GOAL_POS t with ⟨gr, gc⟩
  simp only [manhattanTerm, hGP, N_eq]
  rcases hadj with ⟨rfl, hc⟩ | rfl | ⟨rfl, hc⟩ | ⟨rfl, hc⟩ <;> omega

theorem sum_split_two (F : Nat → Nat) {b j : Nat} (hb : b < 25) (hj : j < 25)
    (hbj : b ≠ j) :
    ∑ i ∈ Finset.range 25, F i =
      F b + (F j + ∑ i ∈ ((Finset.range 25).erase b).erase j, F i) := by
  rw [Finset.add_sum_erase _ F (Finset.mem_erase.mpr
      ⟨Ne.symm hbj, Finset.mem_range.mpr hj⟩),
    Finset.add_sum_erase _ F (Finset.mem_range.mpr hb)]

theorem mem_erase_erase {b j i : Nat} (hi : i ∈ ((Finset.range 25).erase b).erase j) :
    i ≠ b ∧ i ≠ j := by
  rcases Finset.mem_erase.mp hi with ⟨hij, hib⟩
  exact ⟨(Finset.mem_erase.mp hib).1, hij⟩

theorem h1_consistent_step {s : List Nat} {b : Nat}
    {t : List Nat × Nat × String} (hperm : ValidState s) (hb : b < 25)
    (hblank : s.getD b 0 = 0) (ht : t ∈ generate_successors s b) :
    h1_misplaced s ≤ 1 + h1_misplaced t.1 := by
  obtain ⟨hj, hjb, hswap⟩ := succ_unpack hb ht
  have hlen : s.length = 25 := hperm.length
  have hvget_b : t.1.getD b 0 = s.getD t.2.1 0 := by
    rw [hswap]; exact swapTiles_getD_fst (by omega) (fun hc => hjb hc.symm)
  have hvget_j : t.1.getD t.2.1 0 = s.getD b 0 := by
    rw [hswap]; exact swapTiles_getD_snd (by omega)
  have hother : ∀ i, i ≠ b → i ≠ t.2.1 → t.1.getD i 0 = s.getD i 0 := by
    intro i hib hij
    rw [hswap]; exact swapTiles_getD_other hib hij
  rw [h1_eq_sum, h1_eq_sum,
    sum_split_two _ hb hj (fun hc => hjb hc.symm),
    sum_split_two _ hb hj (fun hc => hjb hc.symm)]
  have hFb : (if s.getD b 0 ≠ 0 ∧ s.getD b 0 ≠ GOAL.getD b 0 then 1 else 0)
      = 0 := by rw [if_neg (fun hA => hA.1 hblank)]
  have hGj : (if t.1.getD t.2.1 0 ≠ 0 ∧ t.1.getD t.2.1 0 ≠ GOAL.getD t.2.1 0
      then 1 else 0) = 0 := by
    rw [if_neg]
    intro hA
    exact hA.1 (hvget_j.trans hblank)
  have hrest : ∑ i ∈ ((Finset.range 25).erase b).erase t.2.1,
      (if s.getD i 0 ≠ 0 ∧ s.getD i 0 ≠ GOAL.getD i 0 then 1 else 0) =
      ∑ i ∈ ((Finset.range 25).erase b).erase t.2.1,
      (if t.1.getD i 0 ≠ 0 ∧ t.1.getD i 0 ≠ GOAL.getD i 0 then 1 else 0) := by
    refine Finset.sum_congr rfl (fun i hi => ?_)
    obtain ⟨hib, hij⟩ := mem_erase_erase hi
    rw [hother i hib hij]
  rw [hFb, hGj, hrest]
  have hle : (if s.getD t.2.1 0 ≠ 0 ∧ s.getD t.2.1 0 ≠ GOAL.getD t.2.1 0
      then 1 else 0) ≤ 1 := by split <;> omega
  omega

theorem h2_consistent_step {s : List Nat} {b : Nat}
    {t : List Nat × Nat × String} (hperm : ValidState s) (hb : b < 25)
    (hblank : s.getD b 0 = 0) (ht : t ∈ generate_successors s b) :
    h2_manhattan s ≤ 1 + h2_manhattan t.1 := by
  obtain ⟨hj, hjb, hswap⟩ := succ_unpack hb ht
  have hlen : s.length = 25 := hperm.length
  have hvlen : t.1.length = 25 := by rw [hswap, swapTiles_length, hlen]
  have hvget_b : t.1.getD b 0 = s.getD t.2.1 0 := by
    rw [hswap]; exact swapTiles_getD_fst (by omega) (fun hc => hjb hc.symm)
  have hvget_j : t.1.getD t.2.1 0 = s.getD b 0 := by
    rw [hswap]; exact swapTiles_getD_snd (by omega)
  have hother : ∀ i, i ≠ b → i ≠ t.2.1 → t.1.getD i 0 = s.getD i 0 := by
    intro i hib hij
    rw [hswap]; exact swapTiles_getD_other hib hij
  rw [h2_eq_sum hlen, h2_eq_sum hvlen,
    sum_split_two _ hb hj (fun hc => hjb hc.symm),
    sum_split_two _ hb hj (fun hc => hjb hc.symm)]
  have hFb : (if s.getD b 0 = 0 then 0 else manhattanTerm b (s.getD b 0))
      = 0 := by rw [if_pos hblank]
  have hGj : (if t.1.getD t.2.1 0 = 0 then 0
      else manhattanTerm t.2.1 (t.1.getD t.2.1 0)) = 0 := by
    rw [if_pos (hvget_j.trans hblank)]
  have hrest : ∑ i ∈ ((Finset.range 25).erase b).erase t.2.1,
      (if s.getD i 0 = 0 then 0 else manhattanTerm i (s.getD i 0)) =
      ∑ i ∈ ((Finset.range 25).erase b).erase t.2.1,
      (if t.1.getD i 0 = 0 then 0 else manhattanTerm i (t.1.getD i 0)) := by
    refine Finset.sum_congr rfl (fun i hi => ?_)
    obtain ⟨hib, hij⟩ := mem_erase_erase hi
    rw [hother i hib hij]
  rw [hFb, hGj, hrest, hvget_b]
  have hkey : (if s.getD t.2.1 0 = 0 then 0
        else manhattanTerm t.2.1 (s.getD t.2.1 0)) ≤
      1 + (if s.getD t.2.1 0 = 0 then 0
        else manhattanTerm b (s.getD t.2.1 0)) := by
    split
    · omega
    · exact manhattanTerm_adjacent _ (succ_adjacent ht)
  omega

/-- C6: both heuristics are consistent along the edges produced by
generate_successors, and both vanish on the goal state. -/
theorem heuristics_consistent (s : List Nat) (b : Nat) (hperm : ValidState s)
    (hb : b < 25) (hblank : s.getD b 0 = 0) :
    (∀ t ∈ generate_successors s b,
      h1_misplaced s ≤ 1 + h1_misplaced t.1 ∧
      h2_manhattan s ≤ 1 + h2_manhattan t.1) ∧
    h1_misplaced GOAL = 0 ∧ h2_manhattan GOAL = 0 := by
  refine ⟨fun t ht => ⟨h1_consistent_step hperm hb hblank ht,
    h2_consistent_step hperm hb hblank ht⟩, by decide, by decide⟩

/-! ### Dictionary lemmas -/

theorem dictLookup_insert_self (m : List (List Nat × Nat)) (k : List Nat)
    (v : Nat) : dictLookup (dictInsert m k v) k = some v := by
  induction m with
  | nil => simp [dictInsert, dictLookup]
  | cons kv rest ih =>
    by_cases hk : kv.1 = k
    · simp only [dictInsert, if_pos hk, dictLookup]
      simp
    · simp only [dictInsert, if_neg hk, dictLookup]
      exact ih

theorem dictLookup_insert_ne (m : List (List Nat × Nat)) (k : List Nat)
    (v : Nat) (k' : List Nat) (hk : k' ≠ k) :
    dictLookup (dictInsert m k v) k' = dictLookup m k' := by
  have hk2 : k ≠ k' := fun hc => hk hc.symm
  induction m with
  | nil => simp only [dictInsert, dictLookup, if_neg hk2]
  | cons kv rest ih =>
    by_cases h1 : kv.1 = k
    · simp only [dictInsert, if_pos h1, dictLookup]
      rw [if_neg hk2, if_neg (by rw [h1]; exact hk2)]
    · simp only [dictInsert, if_neg h1, dictLookup]
      by_cases h2 : kv.1 = k'
      · rw [if_pos h2, if_pos h2]
      · rw [if_neg h2, if_neg h2]
        exact ih

/-! ### popMin lemmas -/

theorem pnLe_refl (a : PriorityNode) : pnLe a a := by unfold pnLe; omega

theorem pnLe_trans {a b c : PriorityNode} (h1 : pnLe a b) (h2 : pnLe b c) :
    pnLe a c := by unfold pnLe at *; omega

theorem pnLe_total (a b : PriorityNode) : pnLe a b ∨ pnLe b a := by
  unfold pnLe; omega

theorem popMin_eq_none {l : List PriorityNode} : popMin l = none ↔ l = [] := by
  cases l with
  | nil => simp [popMin]
  | cons x xs =>
    simp only [popMin]
    constructor
    · intro hc
      cases hpm : popMin xs with
      | none => rw [hpm] at hc; simp at hc
      | some r => rw [hpm] at hc; rcases r with ⟨m, rest⟩; dsimp at hc; split at hc <;> simp at hc
    · intro hc; simp at hc

theorem popMin_perm {l : List PriorityNode} {pn : PriorityNode}
    {rest : List PriorityNode} (h : popMin l = some (pn, rest)) :
    l.Perm (pn :: rest) := by
  induction l generalizing pn rest with
  | nil => simp [popMin] at h
  | cons x xs ih =>
    simp only [popMin] at h
    cases hpm : popMin xs with
    | none =>
      rw [hpm] at h
      have hxs : xs = [] := popMin_eq_none.mp hpm
      simp at h
      obtain ⟨rfl, rfl⟩ := h
      rw [hxs]
    | some r =>
      rcases r with ⟨m, rest'⟩
      rw [hpm] at h
      dsimp at h
      split at h
      · simp at h
        obtain ⟨rfl, rfl⟩ := h
        exact List.Perm.refl _
      · simp at h
        obtain ⟨rfl, rfl⟩ := h
        have hperm := ih hpm
        exact (hperm.cons x).trans (List.Perm.swap m x rest')

theorem popMin_le {l : List PriorityNode} {pn : PriorityNode}
    {rest : List PriorityNode} (h : popMin l = some (pn, rest)) :
    ∀ x ∈ l, pnLe pn x := by
  induction l generalizing pn rest with
  | nil => simp [popMin] at h
  | cons x xs ih =>
    simp only [popMin] at h
    cases hpm : popMin xs with
    | none =>
      rw [hpm] at h
      have hxs : xs = [] := popMin_eq_none.mp hpm
      simp at h
      obtain ⟨rfl, rfl⟩ := h
      subst hxs
      intro y hy
      simp at hy
      subst hy
      exact pnLe_refl _
    | some r =>
      rcases r with ⟨m, rest'⟩
      rw [hpm] at h
      dsimp at h
      split at h
      · rename_i hle
        simp at h
        obtain ⟨rfl, rfl⟩ := h
        intro y hy
        rcases List.mem_cons.mp hy with rfl | hy'
        · exact pnLe_refl _
        · exact pnLe_trans hle (ih hpm y hy')
      · rename_i hnle
        simp at h
        obtain ⟨rfl, rfl⟩ := h
        intro y hy
        rcases List.mem_cons.mp hy with rfl | hy'
        · rcases pnLe_total y m with hc | hc
          · exact absurd hc hnle
          · exact hc
        · exact ih hpm y hy'

/-! ### The move-label bridge between successor tuples and applyMove -/

theorem find?_of_labels_nodup {l : List (List Nat × Nat × String)}
    {t : List Nat × Nat × String}
    (hnd : (l.map (fun u => u.2.2)).Nodup) (ht : t ∈ l) :
    l.find? (fun u => u.2.2 == t.2.2) = some t := by
  induction l with
  | nil => simp at ht
  | cons x xs ih =>
    rcases List.mem_cons.mp ht with rfl | ht'
    · rw [List.find?_cons_of_pos _ (by simp)]
    · have hx : x.2.2 ≠ t.2.2 := by
        intro hc
        have : t.2.2 ∈ xs.map (fun u => u.2.2) := List.mem_map_of_mem _ ht'
        rw [List.map_cons, List.nodup_cons] at hnd
        exact hnd.1 (hc ▸ this)
      rw [List.find?_cons_of_neg _ (by simpa using hx)]
      exact ih (List.nodup_cons.mp (by simpa using hnd)).2 ht'

theorem generate_successors_labels_nodup (s : List Nat) (b : Nat) :
    ((generate_successors s b).map (fun u => u.2.2)).Nodup := by
  rw [generate_successors_labels]
  split_ifs <;> decide

theorem applyMove_of_mem {s : List Nat} {t : List Nat × Nat × String}
    (ht : t ∈ generate_successors s (s.indexOf 0)) :
    applyMove s t.2.2 = some t.1 := by
  rw [applyMove, find?_of_labels_nodup (generate_successors_labels_nodup _ _) ht]

theorem applyMoves_append (s : List Nat) (ms1 ms2 : List String) :
    applyMoves s (ms1 ++ ms2) =
      match applyMoves s ms1 with
      | some s' => applyMoves s' ms2
      | none => none := by
  induction ms1 generalizing s with
  | nil => simp [applyMoves]
  | cons m ms ih =>
    rw [List.cons_append, applyMoves]
    cases ham : applyMove s m with
    | none => simp [applyMoves, ham]
    | some s1 => simp [applyMoves, ham, ih]

/-! ### Properties of valid nodes -/

theorem ValidState.indexOf_zero {s : List Nat} (hs : ValidState s) {j : Nat}
    (hj : j < 25) (h0 : s.getD j 0 = 0) : s.indexOf 0 = j := by
  have hmem : (0 : Nat) ∈ s := hs.mem_iff.mpr (by decide)
  have hix : s.indexOf 0 < s.length := List.indexOf_lt_length.mpr hmem
  have hj' : j < s.length := by rw [hs.length]; exact hj
  have h1 : s[s.indexOf 0] = 0 := List.getElem_indexOf hix
  have h2 : s[j] = 0 := by
    rw [List.getD_eq_getElem?_getD, List.getElem?_eq_getElem hj'] at h0
    exact h0
  exact hs.nodup.getElem_inj_iff.mp (h1.trans h2.symm)

theorem succ_validState {s : List Nat} {b : Nat} {t : List Nat × Nat × String}
    (hs : ValidState s) (hb : b < 25) (ht : t ∈ generate_successors s b) :
    ValidState t.1 := by
  obtain ⟨hj, hjb, hswap⟩ := succ_unpack hb ht
  have hb' : b < s.length := by rw [hs.length]; exact hb
  have hj' : t.2.1 < s.length := by rw [hs.length]; exact hj
  exact List.Perm.trans
    (hswap ▸ swapTiles_perm hb' hj' (fun hc => hjb hc.symm)) hs

theorem reconstruct_path_child (s : List Nat) (b g hv : Nat) (move : String)
    (parent : Node) :
    reconstruct_path (Node.child s b g hv move parent) =
      reconstruct_path parent ++ [move] := by
  simp [reconstruct_path, collectMoves]

/-- All structural consequences of validity, proved by one induction over
the parent chain. -/
theorem valid_props {start : List Nat} {hf : List Nat → Nat}
    (hstart : ValidState start) :
    ∀ n : Node, Node.valid start hf n →
      ValidState n.state ∧ n.blank_index = n.state.indexOf 0 ∧
      n.blank_index < 25 ∧ n.state.getD n.blank_index 0 = 0 ∧
      n.h = hf n.state ∧
      applyMoves start (reconstruct_path n) = some n.state ∧
      (reconstruct_path n).length = n.g := by
  intro n
  induction n with
  | root s b g hv =>
    rintro ⟨rfl, rfl, rfl, rfl⟩
    have hmem : (0 : Nat) ∈ s := hstart.mem_iff.mpr (by decide)
    have hix : s.indexOf 0 < s.length := List.indexOf_lt_length.mpr hmem
    refine ⟨hstart, rfl, ?_, ?_, rfl, rfl, rfl⟩
    · have := hstart.length; simp only [Node.blank_index]; omega
    · simp only [Node.blank_index, Node.state]
      rw [List.getD_eq_getElem?_getD, List.getElem?_eq_getElem hix]
      exact List.getElem_indexOf hix
  | child s b g hv move parent ih =>
    rintro ⟨hpar, hmem, rfl, rfl⟩
    obtain ⟨hps, hpb, hpb25, hpblank, hph, hppath, hplen⟩ := ih hpar
    have hsv : ValidState s := by
      have := succ_validState hps hpb25 hmem
      simpa using this
    obtain ⟨hj, hjb, hswap⟩ := succ_unpack hpb25 hmem
    have hblank : s.getD b 0 = 0 := by
      show (s, b, move).1.getD (s, b, move).2.1 0 = 0
      rw [hswap]
      have : (s, b, move).2.1 < parent.state.length := by
        rw [hps.length]; exact hj
      rw [swapTiles_getD_snd this]
      exact hpblank
    have hbix : b = s.indexOf 0 :=
      (hsv.indexOf_zero (by simpa using hj) hblank).symm
    refine ⟨hsv, hbix, by simpa using hj, hblank, rfl, ?_, ?_⟩
    · simp only [Node.state]
      rw [reconstruct_path_child, applyMoves_append, hppath]
      have hmem' : (s, b, move) ∈
          generate_successors parent.state (parent.state.indexOf 0) := by
        rw [← hpb]; exact hmem
      have happ : applyMove parent.state move = some s := by
        simpa using applyMove_of_mem hmem'
      show applyMoves parent.state [move] = some s
      simp only [applyMoves, happ]
    · simp only [Node.g]
      rw [reconstruct_path_child, List.length_append, hplen]
      rfl

/-! ### Characterisation of the successor-processing branch -/

theorem processSuccessor_skip {hf : List Nat → Nat} {cur : Node}
    {st : LoopState} {succ : List Nat × Nat × String}
    (h : ∃ v, dictLookup st.best_g succ.1 = some v ∧ v ≤ cur.g + 1) :
    processSuccessor hf cur st succ = st := by
  obtain ⟨v, hv, hvle⟩ := h
  simp only [processSuccessor, hv]
  rw [if_pos (decide_eq_true hvle)]

theorem processSuccessor_push {hf : List Nat → Nat} {cur : Node}
    {st : LoopState} {succ : List Nat × Nat × String}
    (h : ∀ v, dictLookup st.best_g succ.1 = some v → cur.g + 1 < v) :
    processSuccessor hf cur st succ =
      { st with
        best_g := dictInsert st.best_g succ.1 (cur.g + 1)
        open_list := st.open_list ++
          [⟨cur.g + 1 + hf succ.1, st.counter,
            Node.child succ.1 succ.2.1 (cur.g + 1) (hf succ.1)
              succ.2.2 cur⟩]
        counter := st.counter + 1
        generated := st.generated + 1 } := by
  cases hlk : dictLookup st.best_g succ.1 with
  | none =>
    simp only [processSuccessor, hlk]
    rfl
  | some v =>
    have hlt := h v hlk
    simp only [processSuccessor, hlk]
    rw [if_neg (by simp only [decide_eq_true_eq]; omega)]
    rfl

/-! ### The loop invariant -/

/-- No frontier entry represents the record (z, v) of the best-cost table. -/
def noRep (l : List PriorityNode) (z : List Nat) (v : Nat) : Prop :=
  ∀ pn ∈ l, ¬(pn.node.state = z ∧ pn.node.g = v)

/-- Invariant of the astar loop state tying the frontier, the best-cost
table and the start state together. -/
structure Inv (start : List Nat) (hf : List Nat → Nat) (st : LoopState) :
    Prop where
  openOk : ∀ pn ∈ st.open_list, Node.valid start hf pn.node ∧
    pn.f = pn.node.g + pn.node.h ∧
    ∃ v, dictLookup st.best_g pn.node.state = some v ∧ v ≤ pn.node.g
  bgPath : ∀ z v, dictLookup st.best_g z = some v →
    ∃ ms, applyMoves start ms = some z ∧ ms.length = v
  bgClosed : ∀ z v, dictLookup st.best_g z = some v →
    noRep st.open_list z v →
    ∀ t ∈ generate_successors z (z.indexOf 0),
      ∃ w, dictLookup st.best_g t.1 = some w ∧ w ≤ v + 1
  goalOpen : ∀ v, dictLookup st.best_g GOAL = some v →
    ∃ pn ∈ st.open_list, pn.node.state = GOAL ∧ pn.node.g = v
  startZero : dictLookup st.best_g start = some 0

/-- Invariant carried through the fold over the successor list of the
expanded node p: the closed-state obligation may still be pending for the
successors not yet processed. -/
def FoldInv (start : List Nat) (hf : List Nat → Nat) (p : Node)
    (todo : List (List Nat × Nat × String)) (st : LoopState) : Prop :=
  (∀ pn ∈ st.open_list, Node.valid start hf pn.node ∧
    pn.f = pn.node.g + pn.node.h ∧
    ∃ v, dictLookup st.best_g pn.node.state = some v ∧ v ≤ pn.node.g) ∧
  (∀ z v, dictLookup st.best_g z = some v →
    ∃ ms, applyMoves start ms = some z ∧ ms.length = v) ∧
  (∀ z v, dictLookup st.best_g z = some v →
    noRep st.open_list z v →
    ∀ t ∈ generate_successors z (z.indexOf 0),
      (∃ w, dictLookup st.best_g t.1 = some w ∧ w ≤ v + 1) ∨
      (z = p.state ∧ v = p.g ∧ t ∈ todo)) ∧
  (∀ v, dictLookup st.best_g GOAL = some v →
    ∃ pn ∈ st.open_list, pn.node.state = GOAL ∧ pn.node.g = v) ∧
  dictLookup st.best_g start = some 0

theorem foldInv_step {start : List Nat} {hf : List Nat → Nat} {p : Node}
    (hstart : ValidState start) (hp : Node.valid start hf p)
    {t0 : List Nat × Nat × String} {todo : List (List Nat × Nat × String)}
    {st : LoopState}
    (ht0 : t0 ∈ generate_successors p.state p.blank_index)
    (hinv : FoldInv start hf p (t0 :: todo) st) :
    FoldInv start hf p todo (processSuccessor hf p st t0) := by
  obtain ⟨hopen, hpath, hclosed, hgoal, hstart0⟩ := hinv
  by_cases hskip : ∃ v, dictLookup st.best_g t0.1 = some v ∧ v ≤ p.g + 1
  · rw [processSuccessor_skip hskip]
    obtain ⟨v0, hv0, hv0le⟩ := hskip
    refine ⟨hopen, hpath, ?_, hgoal, hstart0⟩
    intro z v hzv hnr t ht
    rcases hclosed z v hzv hnr t ht with hw | ⟨hz, hv, htm⟩
    · exact Or.inl hw
    · rcases List.mem_cons.mp htm with rfl | htodo
      · exact Or.inl ⟨v0, hv0, by omega⟩
      · exact Or.inr ⟨hz, hv, htodo⟩
  · have hpush : ∀ v, dictLookup st.best_g t0.1 = some v → p.g + 1 < v := by
      intro v hv
      by_contra hc
      exact hskip ⟨v, hv, by omega⟩
    rw [processSuccessor_push hpush]
    obtain ⟨hpperm, hpbi, hpb25, hpblk, hph, hppath, hplen⟩ :=
      valid_props hstart p hp
    have ht0' : t0 ∈ generate_successors p.state (p.state.indexOf 0) := by
      rw [← hpbi]; exact ht0
    have hnewvalid : Node.valid start hf
        (Node.child t0.1 t0.2.1 (p.g + 1) (hf t0.1) t0.2.2 p) :=
      ⟨hp, ht0, rfl, rfl⟩
    refine ⟨?_, ?_, ?_, ?_, ?_⟩
    · intro pn hpn
      rcases List.mem_append.mp hpn with hold | hnew
      · obtain ⟨hval, hfok, v, hvlk, hvle⟩ := hopen pn hold
        refine ⟨hval, hfok, ?_⟩
        by_cases hzs : pn.node.state = t0.1
        · have := hpush v (hzs ▸ hvlk)
          exact ⟨p.g + 1, by rw [hzs]; exact dictLookup_insert_self _ _ _,
            by omega⟩
        · exact ⟨v, by rw [dictLookup_insert_ne _ _ _ _ hzs]; exact hvlk, hvle⟩
      · rcases List.mem_singleton.mp hnew with rfl
        refine ⟨hnewvalid, rfl, p.g + 1, ?_, le_refl _⟩
        exact dictLookup_insert_self _ _ _
    · intro z v hzv
      by_cases hz0 : z = t0.1
      · subst hz0
        rw [dictLookup_insert_self] at hzv
        obtain rfl : p.g + 1 = v := by injection hzv
        refine ⟨reconstruct_path p ++ [t0.2.2], ?_, ?_⟩
        · rw [applyMoves_append, hppath]
          have happ : applyMove p.state t0.2.2 = some t0.1 :=
            applyMove_of_mem ht0'
          show applyMoves p.state [t0.2.2] = some _
          simp only [applyMoves, happ]
        · rw [List.length_append, hplen]
          rfl
      · rw [dictLookup_insert_ne _ _ _ _ hz0] at hzv
        exact hpath z v hzv
    · intro z v hzv hnr t ht
      by_cases hz0 : z = t0.1
      · exfalso
        subst hz0
        rw [dictLookup_insert_self] at hzv
        obtain rfl : p.g + 1 = v := by injection hzv
        refine hnr ⟨p.g + 1 + hf t0.1, st.counter,
          Node.child t0.1 t0.2.1 (p.g + 1) (hf t0.1) t0.2.2 p⟩
          (List.mem_append.mpr (Or.inr (List.mem_singleton.mpr rfl))) ⟨rfl, rfl⟩
      · rw [dictLookup_insert_ne _ _ _ _ hz0] at hzv
        have hnr' : noRep st.open_list z v := by
          intro pn hpn
          exact hnr pn (List.mem_append.mpr (Or.inl hpn))
        rcases hclosed z v hzv hnr' t ht with ⟨w, hw, hwle⟩ | ⟨hz, hv, htm⟩
        · by_cases ht1 : t.1 = t0.1
          · have := hpush w (ht1 ▸ hw)
            exact Or.inl ⟨p.g + 1,
              by rw [ht1]; exact dictLookup_insert_self _ _ _, by omega⟩
          · exact Or.inl ⟨w,
              by rw [dictLookup_insert_ne _ _ _ _ ht1]; exact hw, hwle⟩
        · rcases List.mem_cons.mp htm with rfl | htodo
          · exact Or.inl ⟨p.g + 1, dictLookup_insert_self _ _ _, by omega⟩
          · exact Or.inr ⟨hz, hv, htodo⟩
    · intro v hv
      by_cases hg0 : GOAL = t0.1
      · rw [hg0, dictLookup_insert_self] at hv
        obtain rfl : p.g + 1 = v := by injection hv
        refine ⟨⟨p.g + 1 + hf t0.1, st.counter,
          Node.child t0.1 t0.2.1 (p.g + 1) (hf t0.1) t0.2.2 p⟩,
          List.mem_append.mpr (Or.inr (List.mem_singleton.mpr rfl)),
          hg0.symm, rfl⟩
      · rw [dictLookup_insert_ne _ _ _ _ hg0] at hv
        obtain ⟨pn, hpn, hs, hg⟩ := hgoal v hv
        exact ⟨pn, List.mem_append.mpr (Or.inl hpn), hs, hg⟩
    · by_cases hs0 : start = t0.1
      · exfalso
        have := hpush 0 (hs0 ▸ hstart0)
        omega
      · rw [dictLookup_insert_ne _ _ _ _ hs0]
        exact hstart0

theorem foldl_foldInv {start : List Nat} {hf : List Nat → Nat} {p : Node}
    (hstart : ValidState start) (hp : Node.valid start hf p) :
    ∀ (todo : List (List Nat × Nat × String)) (st : LoopState),
    (∀ t ∈ todo, t ∈ generate_successors p.state p.blank_index) →
    FoldInv start hf p todo st →
    FoldInv start hf p [] (todo.foldl (processSuccessor hf p) st) := by
  intro todo
  induction todo with
  | nil => intro st _ hinv; exact hinv
  | cons t0 rest ih =>
    intro st hsub hinv
    rw [List.foldl_cons]
    exact ih _ (fun t ht => hsub t (List.mem_cons_of_mem _ ht))
      (foldInv_step hstart hp (hsub t0 (List.mem_cons_self _ _)) hinv)

theorem inv_init {start : List Nat} (hf : List Nat → Nat)
    (hstart : ValidState start) : Inv start hf (initLoopState start hf) := by
  constructor
  · intro pn hpn
    simp only [initLoopState, List.mem_singleton] at hpn
    subst hpn
    exact ⟨⟨rfl, rfl, rfl, rfl⟩, rfl, 0, by simp [dictLookup, Node.state],
      le_refl _⟩
  · intro z v hzv
    simp only [initLoopState, dictLookup] at hzv
    split at hzv
    · rename_i heq
      obtain rfl : (0 : Nat) = v := by injection hzv
      exact ⟨[], by rw [← heq]; rfl, rfl⟩
    · simp at hzv
  · intro z v hzv hnr
    exfalso
    simp only [initLoopState, dictLookup] at hzv
    split at hzv
    · rename_i heq
      obtain rfl : (0 : Nat) = v := by injection hzv
      refine hnr ⟨Node.f (Node.root start (start.indexOf 0) 0 (hf start)), 0,
        Node.root start (start.indexOf 0) 0 (hf start)⟩ ?_ ⟨heq, rfl⟩
      simp [initLoopState]
    · simp at hzv
  · intro v hv
    simp only [initLoopState, dictLookup] at hv
    split at hv
    · rename_i heq
      obtain rfl : (0 : Nat) = v := by injection hv
      exact ⟨⟨Node.f (Node.root start (start.indexOf 0) 0 (hf start)), 0,
        Node.root start (start.indexOf 0) 0 (hf start)⟩,
        by simp [initLoopState], heq, rfl⟩
    · simp at hv
  · simp [initLoopState, dictLookup]

theorem astarStep_next_inv {start : List Nat} {hf : List Nat → Nat}
    {timedOut : Nat → Bool} {iter : Nat} {st st' : LoopState}
    (hstart : ValidState start) (hinv : Inv start hf st)
    (hstep : astarStep hf timedOut iter st = .next st') :
    Inv start hf st' := by
  unfold astarStep at hstep
  split at hstep
  · simp at hstep
  · split at hstep
    · simp at hstep
    · split at hstep
      · simp at hstep
      · rename_i pnpair pn rest hpm
        by_cases hgoalne : pn.node.state = GOAL
        · simp [hgoalne] at hstep
        · simp only [hgoalne, if_false, StepResult.next.injEq] at hstep
          subst hstep
          have hperm₀ := popMin_perm hpm
          have hpnmem : pn ∈ st.open_list :=
            hperm₀.symm.subset (List.mem_cons_self _ _)
          obtain ⟨hpvalid, hpf, v0, hv0, hv0le⟩ := hinv.openOk pn hpnmem
          obtain ⟨hpperm, hpbi, hpb25, hpblk, hph, hppath, hplen⟩ :=
            valid_props hstart pn.node hpvalid
          set st1 : LoopState :=
            { st with open_list := rest, expanded := st.expanded + 1 }
            with hst1
          have hf1 : FoldInv start hf pn.node
              (generate_successors pn.node.state pn.node.blank_index) st1 := by
            refine ⟨?_, hinv.bgPath, ?_, ?_, hinv.startZero⟩
            · intro pn' hpn'
              exact hinv.openOk pn'
                (hperm₀.symm.subset (List.mem_cons_of_mem _ hpn'))
            · intro z v hzv hnr t ht
              by_cases hnrFull : noRep st.open_list z v
              · exact Or.inl (hinv.bgClosed z v hzv hnrFull t ht)
              · have : ∃ pn' ∈ st.open_list,
                    pn'.node.state = z ∧ pn'.node.g = v := by
                  by_contra hc
                  push_neg at hc
                  exact hnrFull (fun pn' hpn' hprop =>
                    (hc pn' hpn' hprop.1) hprop.2)
                obtain ⟨pn', hpn', hzs, hgs⟩ := this
                have hmemc : pn' ∈ pn :: rest := hperm₀.subset hpn'
                rcases List.mem_cons.mp hmemc with heq | hmr
                · have hzz : z = pn.node.state := by rw [← hzs, heq]
                  subst hzz
                  refine Or.inr ⟨rfl, (heq ▸ hgs : pn.node.g = v).symm, ?_⟩
                  rw [hpbi]
                  exact ht
                · exact absurd ⟨hzs, hgs⟩ (hnr pn' hmr)
            · intro v hv
              obtain ⟨pn', hpn', hzs, hgs⟩ := hinv.goalOpen v hv
              have hmemc : pn' ∈ pn :: rest := hperm₀.subset hpn'
              rcases List.mem_cons.mp hmemc with rfl | hmr
              · exact absurd hzs hgoalne
              · exact ⟨pn', hmr, hzs, hgs⟩
          have hf2 := foldl_foldInv hstart hpvalid _ st1 (fun t ht => ht) hf1
          obtain ⟨ho, hpth, hcl, hgo, hs0⟩ := hf2
          exact ⟨ho, hpth,
            fun z v hzv hnr t ht =>
              (hcl z v hzv hnr t ht).resolve_right
                (fun hcc => absurd hcc.2.2 (List.not_mem_nil t)),
            hgo, hs0⟩

theorem runSteps_inv {start : List Nat} {hf : List Nat → Nat}
    {timedOut : Nat → Bool} (hstart : ValidState start) :
    ∀ (n iter : Nat) (st st' : LoopState), Inv start hf st →
    runSteps hf timedOut n iter st = some st' → Inv start hf st' := by
  intro n
  induction n with
  | zero =>
    intro iter st st' hinv h
    simp only [runSteps, Option.some.injEq] at h
    subst h
    exact hinv
  | succ n ih =>
    intro iter st st' hinv h
    rw [runSteps] at h
    cases hstep : astarStep hf timedOut iter st with
    | done r => rw [hstep] at h; simp at h
    | next st1 =>
      rw [hstep] at h
      exact ih _ _ _ (astarStep_next_inv hstart hinv hstep) h

/-! ### Admissibility from consistency -/

theorem ValidState.indexOf_lt {s : List Nat} (hs : ValidState s) :
    s.indexOf 0 < 25 := by
  have hmem : (0 : Nat) ∈ s := hs.mem_iff.mpr (by decide)
  have h1 := List.indexOf_lt_length.mpr hmem
  have h2 := hs.length
  omega

theorem ValidState.getD_indexOf_zero {s : List Nat} (hs : ValidState s) :
    s.getD (s.indexOf 0) 0 = 0 := by
  have hmem : (0 : Nat) ∈ s := hs.mem_iff.mpr (by decide)
  have hix : s.indexOf 0 < s.length := List.indexOf_lt_length.mpr hmem
  rw [List.getD_eq_getElem?_getD, List.getElem?_eq_getElem hix]
  exact List.getElem_indexOf hix

theorem applyMove_some {s s1 : List Nat} {m : String}
    (h : applyMove s m = some s1) :
    ∃ t ∈ generate_successors s (s.indexOf 0), t.1 = s1 ∧ t.2.2 = m := by
  unfold applyMove at h
  cases hfind : (generate_successors s (s.indexOf 0)).find?
      (fun t => t.2.2 == m) with
  | none => rw [hfind] at h; simp at h
  | some t =>
    rw [hfind] at h
    have ht1 : t.1 = s1 := by injection h
    have hm := List.mem_of_find?_eq_some hfind
    have hp := List.find?_some hfind
    exact ⟨t, hm, ht1, by simpa using hp⟩

theorem applyMove_validState {s s1 : List Nat} {m : String}
    (hs : ValidState s) (h : applyMove s m = some s1) : ValidState s1 := by
  obtain ⟨t, htm, ht1, _⟩ := applyMove_some h
  exact ht1 ▸ succ_validState hs hs.indexOf_lt htm

theorem applyMoves_validState {s z : List Nat} {ms : List String}
    (hs : ValidState s) (h : applyMoves s ms = some z) : ValidState z := by
  induction ms generalizing s with
  | nil =>
    simp only [applyMoves, Option.some.injEq] at h
    exact h ▸ hs
  | cons m ms ih =>
    rw [applyMoves] at h
    cases ham : applyMove s m with
    | none => rw [ham] at h; simp at h
    | some s1 =>
      rw [ham] at h
      exact ih (applyMove_validState hs ham) h

theorem consistent_admissible {hf : List Nat → Nat}
    (hcons : ∀ s, ValidState s → ∀ t ∈ generate_successors s (s.indexOf 0),
      hf s ≤ 1 + hf t.1)
    (hgoal0 : hf GOAL = 0) :
    ∀ (ms : List String) (s : List Nat), ValidState s →
      applyMoves s ms = some GOAL → hf s ≤ ms.length := by
  intro ms
  induction ms with
  | nil =>
    intro s hs h
    simp only [applyMoves, Option.some.injEq] at h
    subst h
    rw [hgoal0]
    exact Nat.zero_le _
  | cons m ms ih =>
    intro s hs h
    rw [applyMoves] at h
    cases ham : applyMove s m with
    | none => rw [ham] at h; simp at h
    | some s1 =>
      rw [ham] at h
      obtain ⟨t, htm, ht1, _⟩ := applyMove_some ham
      have hs1 : ValidState s1 := applyMove_validState hs ham
      have hc := hcons s hs t htm
      have hrec := ih s1 hs1 h
      rw [ht1] at hc
      simp only [List.length_cons]
      omega

theorem h1_consistent_indexOf (s : List Nat) (hs : ValidState s) :
    ∀ t ∈ generate_successors s (s.indexOf 0),
      h1_misplaced s ≤ 1 + h1_misplaced t.1 :=
  fun t ht =>
    h1_consistent_step hs hs.indexOf_lt hs.getD_indexOf_zero ht

theorem h2_consistent_indexOf (s : List Nat) (hs : ValidState s) :
    ∀ t ∈ generate_successors s (s.indexOf 0),
      h2_manhattan s ≤ 1 + h2_manhattan t.1 :=
  fun t ht =>
    h2_consistent_step hs hs.indexOf_lt hs.getD_indexOf_zero ht

/-! ### The optimality argument -/

theorem applyMoves_take_drop {s z : List Nat} {ms : List String} (j : Nat)
    (h : applyMoves s ms = some z) :
    ∃ y, applyMoves s (ms.take j) = some y ∧
      applyMoves y (ms.drop j) = some z := by
  have hsplit := applyMoves_append s (ms.take j) (ms.drop j)
  rw [List.take_append_drop] at hsplit
  rw [h] at hsplit
  cases hty : applyMoves s (ms.take j) with
  | none => rw [hty] at hsplit; simp at hsplit
  | some y =>
    rw [hty] at hsplit
    exact ⟨y, rfl, hsplit.symm⟩

theorem open_witness_le {start : List Nat} {hf : List Nat → Nat}
    (hstart : ValidState start)
    (hadm : ∀ (ms : List String) (s : List Nat), ValidState s →
      applyMoves s ms = some GOAL → hf s ≤ ms.length)
    (hgoal0 : hf GOAL = 0)
    {st : LoopState} (hinv : Inv start hf st)
    {ms : List String} (hms : applyMoves start ms = some GOAL)
    (hmin : ∀ ms', applyMoves start ms' = some GOAL →
      ms.length ≤ ms'.length) :
    ∃ pn ∈ st.open_list, pn.node.g + hf pn.node.state ≤ ms.length := by
  set k := ms.length with hk
  have hzex : ∀ j, ∃ y, applyMoves start (ms.take j) = some y ∧
      applyMoves y (ms.drop j) = some GOAL := fun j => applyMoves_take_drop j hms
  choose zf hz1 hz2 using hzex
  have hz0 : zf 0 = start := by
    have h0 := hz1 0
    simp only [List.take_zero] at h0
    have : some start = some (zf 0) := h0
    injection this with h
    exact h.symm
  have hzk : zf k = GOAL := by
    have h1 := hz1 k
    have htk : ms.take k = ms := by rw [hk]; exact List.take_length ms
    rw [htk, hms] at h1
    injection h1 with h
    exact h.symm
  have hzvalid : ∀ j, ValidState (zf j) :=
    fun j => applyMoves_validState hstart (hz1 j)
  have hprefix_min : ∀ j, j ≤ k →
      ∀ ms', applyMoves start ms' = some (zf j) → j ≤ ms'.length := by
    intro j hj ms' hms'
    have happ : applyMoves start (ms' ++ ms.drop j) = some GOAL := by
      rw [applyMoves_append, hms']
      exact hz2 j
    have hlen := hmin _ happ
    rw [List.length_append, List.length_drop] at hlen
    omega
  have hstep : ∀ j, j < k →
      ∃ t ∈ generate_successors (zf j) ((zf j).indexOf 0),
        t.1 = zf (j + 1) := by
    intro j hj
    have hjlen : j < ms.length := by omega
    have h1 : applyMoves start (ms.take (j + 1)) = some (zf (j + 1)) :=
      hz1 (j + 1)
    have htake : ms.take (j + 1) = ms.take j ++ [ms.get ⟨j, hjlen⟩] := by
      rw [List.take_succ]
      congr 1
      rw [List.getElem?_eq_getElem hjlen]
      rfl
    rw [htake, applyMoves_append, hz1 j] at h1
    have h2 : applyMoves (zf j) [ms.get ⟨j, hjlen⟩] = some (zf (j + 1)) := h1
    rw [applyMoves] at h2
    cases ham : applyMove (zf j) (ms.get ⟨j, hjlen⟩) with
    | none => rw [ham] at h2; simp at h2
    | some s1 =>
      rw [ham] at h2
      simp only [applyMoves, Option.some.injEq] at h2
      obtain ⟨t, htm, ht1, _⟩ := applyMove_some ham
      exact ⟨t, htm, by rw [ht1, h2]⟩
  have key : ∀ d j, j ≤ k → k - j ≤ d →
      dictLookup st.best_g (zf j) = some j →
      ∃ pn ∈ st.open_list, pn.node.g + hf pn.node.state ≤ k := by
    intro d
    induction d with
    | zero =>
      intro j hj hd hlook
      have hjk : j = k := by omega
      subst hjk
      rw [hzk] at hlook
      obtain ⟨pn, hpn, hgsGoal, hgval⟩ := hinv.goalOpen _ hlook
      exact ⟨pn, hpn, by rw [hgsGoal, hgoal0]; omega⟩
    | succ d ihd =>
      intro j hj hd hlook
      by_cases hjk : j = k
      · subst hjk
        rw [hzk] at hlook
        obtain ⟨pn, hpn, hgsGoal, hgval⟩ := hinv.goalOpen _ hlook
        exact ⟨pn, hpn, by rw [hgsGoal, hgoal0]; omega⟩
      · have hjlt : j < k := by omega
        by_cases hrep : ∃ pn ∈ st.open_list,
            pn.node.state = zf j ∧ pn.node.g = j
        · obtain ⟨pn, hpn, hzs, hgs⟩ := hrep
          refine ⟨pn, hpn, ?_⟩
          have hfz : hf (zf j) ≤ k - j := by
            have hb := hadm (ms.drop j) (zf j) (hzvalid j) (hz2 j)
            rw [List.length_drop] at hb
            omega
          rw [hzs, hgs]
          omega
        · have hnr : noRep st.open_list (zf j) j := by
            intro pn hpn hprop
            exact hrep ⟨pn, hpn, hprop.1, hprop.2⟩
          obtain ⟨t, htm, ht1⟩ := hstep j hjlt
          obtain ⟨w, hw, hwle⟩ := hinv.bgClosed _ _ hlook hnr t htm
          obtain ⟨ms', hms', hlen'⟩ := hinv.bgPath _ _ hw
          have hwge : j + 1 ≤ w := by
            have hpm := hprefix_min (j + 1) (by omega) ms'
              (ht1 ▸ hms')
            omega
          have hlook' : dictLookup st.best_g (zf (j + 1)) = some (j + 1) := by
            rw [← ht1, hw]
            congr 1
            omega
          exact ihd (j + 1) (by omega) (by omega) hlook'
  exact key k 0 (by omega) (by omega) (by rw [hz0]; exact hinv.startZero)

theorem astarLoop_success {start : List Nat} {hf : List Nat → Nat}
    {timedOut : Nat → Bool} (hstart : ValidState start)
    (hadm : ∀ (ms : List String) (s : List Nat), ValidState s →
      applyMoves s ms = some GOAL → hf s ≤ ms.length)
    (hgoal0 : hf GOAL = 0) :
    ∀ (fuel iter : Nat) (st : LoopState) (m : Node) (stats : Stats),
    Inv start hf st →
    astarLoop hf timedOut fuel iter st = some (some m, stats) →
    Node.valid start hf m ∧ m.state = GOAL ∧
      ∀ ms, applyMoves start ms = some GOAL → m.g ≤ ms.length := by
  intro fuel
  induction fuel with
  | zero =>
    intro iter st m stats _ h
    simp [astarLoop] at h
  | succ fuel ih =>
    intro iter st m stats hinv h
    rw [astarLoop] at h
    cases hstep : astarStep hf timedOut iter st with
    | next st1 =>
      rw [hstep] at h
      exact ih _ _ _ _ (astarStep_next_inv hstart hinv hstep) h
    | done r =>
      rw [hstep] at h
      simp only [Option.some.injEq] at h
      subst h
      unfold astarStep at hstep
      split at hstep
      · simp at hstep
      · split at hstep
        · simp at hstep
        · split at hstep
          · simp at hstep
          · rename_i pnpair pn rest hpm
            by_cases hg : pn.node.state = GOAL
            · simp only [hg, if_true, StepResult.done.injEq,
                Prod.mk.injEq] at hstep
              obtain ⟨hm, hstats⟩ := hstep
              have hmn : pn.node = m := by injection hm
              subst hmn
              have hpnmem : pn ∈ st.open_list :=
                (popMin_perm hpm).symm.subset (List.mem_cons_self _ _)
              obtain ⟨hval, hfok, v0, hv0, hv0le⟩ := hinv.openOk pn hpnmem
              refine ⟨hval, hg, ?_⟩
              intro ms hms
              classical
              have hex : ∃ n, ∃ ms', applyMoves start ms' = some GOAL ∧
                  ms'.length = n := ⟨ms.length, ms, hms, rfl⟩
              obtain ⟨msStar, hmsStar, hlenStar⟩ := Nat.find_spec hex
              have hminStar : ∀ ms', applyMoves start ms' = some GOAL →
                  msStar.length ≤ ms'.length := by
                intro ms' hms'
                rw [hlenStar]
                exact Nat.find_min' hex ⟨ms', hms', rfl⟩
              obtain ⟨pn', hpn', hle⟩ :=
                open_witness_le hstart hadm hgoal0 hinv hmsStar hminStar
              have hlex := popMin_le hpm pn' hpn'
              have hf_pn : pn.f = pn.node.g := by
                rw [hfok, (valid_props hstart pn.node hval).2.2.2.2.1, hg,
                  hgoal0]
                omega
              have hf_pn' : pn'.f = pn'.node.g + hf pn'.node.state := by
                obtain ⟨hval', hfok', _⟩ := hinv.openOk pn' hpn'
                rw [hfok', (valid_props hstart pn'.node hval').2.2.2.2.1]
              have hfle : pn.f ≤ pn'.f := by
                rcases hlex with hlt | ⟨heq, _⟩ <;> omega
              have hfin := hminStar ms hms
              omega
            · simp [hg] at hstep

/-- C1: for a solvable permutation start state and either heuristic,
whenever astar returns a node with status success, the reconstructed move
sequence transforms the start state into GOAL, and no move sequence from
the start state to GOAL is shorter. -/
theorem astar_success_optimal (start : List Nat) (hf : List Nat → Nat)
    (timedOut : Nat → Bool) (fuel : Nat) (m : Node) (stats : Stats)
    (hperm : ValidState start) (hsolv : is_solvable start = true)
    (hh : hf = h1_misplaced ∨ hf = h2_manhattan)
    (hrun : astar start hf timedOut fuel = some (some m, stats))
    (hstatus : stats.status = "success") :
    applyMoves start (reconstruct_path m) = some GOAL ∧
    ∀ ms, applyMoves start ms = some GOAL →
      (reconstruct_path m).length ≤ ms.length := by
  have hgoal0 : hf GOAL = 0 := by
    rcases hh with rfl | rfl <;> decide
  have hadm : ∀ (ms : List String) (s : List Nat), ValidState s →
      applyMoves s ms = some GOAL → hf s ≤ ms.length := by
    rcases hh with rfl | rfl
    · exact consistent_admissible h1_consistent_indexOf (by decide)
    · exact consistent_admissible h2_consistent_indexOf (by decide)
  obtain ⟨hvalid, hgs, hopt⟩ := astarLoop_success hperm hadm hgoal0 fuel 0 _
    m stats (inv_init hf hperm) hrun
  obtain ⟨_, _, _, _, _, hpath, hlen⟩ := valid_props hperm m hvalid
  refine ⟨by rw [hpath, hgs], fun ms hms => ?_⟩
  rw [hlen]
  exact hopt ms hms

/-! ### Claims about single components -/

/-- C8: a generated successor with new cost current.g + 1 is skipped
exactly when the best-cost table holds an entry for its state that is at
most the new cost; otherwise the table is updated, a child node with the
producing move and parent suspended on the frontier with key
new_g + heuristic(new state) and the next counter, and the generated
counter is incremented. -/
theorem successor_processing_spec (hf : List Nat → Nat) (cur : Node)
    (st : LoopState) (succ : List Nat × Nat × String) :
    ((∃ v, dictLookup st.best_g succ.1 = some v ∧ v ≤ cur.g + 1) →
      processSuccessor hf cur st succ = st) ∧
    ((∀ v, dictLookup st.best_g succ.1 = some v → cur.g + 1 < v) →
      processSuccessor hf cur st succ =
        { st with
          best_g := dictInsert st.best_g succ.1 (cur.g + 1)
          open_list := st.open_list ++
            [⟨cur.g + 1 + hf succ.1, st.counter,
              Node.child succ.1 succ.2.1 (cur.g + 1) (hf succ.1)
                succ.2.2 cur⟩]
          counter := st.counter + 1
          generated := st.generated + 1 }) :=
  ⟨processSuccessor_skip, processSuccessor_push⟩

theorem reconstruct_path_eq_forward : ∀ n : Node,
    reconstruct_path n = forwardMoves n := by
  intro n
  induction n with
  | root s b g hv => rfl
  | child s b g hv move parent ih =>
    rw [reconstruct_path_child, ih]
    rfl

theorem reconstruct_path_length : ∀ n : Node, gConsistent n →
    (reconstruct_path n).length = n.g := by
  intro n
  induction n with
  | root s b g hv =>
    intro hg
    simp only [reconstruct_path, collectMoves, List.reverse_nil,
      List.length_nil, Node.g]
    exact hg.symm
  | child s b g hv move parent ih =>
    rintro ⟨hgp, hgc⟩
    rw [reconstruct_path_child, List.length_append, ih hgc]
    show parent.g + 1 = g
    omega

/-- C7: reconstruct_path returns the move labels of the parent chain in
forward order, the parentless root contributing no move, and when the g
fields follow the discipline of astar (root 0, child parent plus one) the
length of the result equals the g of the node. -/
theorem reconstruct_path_spec (n : Node) :
    reconstruct_path n = forwardMoves n ∧
    (gConsistent n → (reconstruct_path n).length = n.g) :=
  ⟨reconstruct_path_eq_forward n, reconstruct_path_length n⟩

/-- C9: when astar is started on GOAL itself with any heuristic, positive
fuel and a timeout oracle that does not fire at the first check, it
returns success immediately with zero expanded nodes and an empty
reconstructed move sequence. -/
theorem astar_goal_start (hf : List Nat → Nat) (timedOut : Nat → Bool)
    (fuel : Nat) (hfuel : 0 < fuel) (htime : timedOut 0 = false) :
    ∃ (m : Node) (stats : Stats),
      astar GOAL hf timedOut fuel = some (some m, stats) ∧
      stats.status = "success" ∧ stats.expanded = 0 ∧
      reconstruct_path m = [] := by
  obtain ⟨fuel', rfl⟩ : ∃ k, fuel = k + 1 := ⟨fuel - 1, by omega⟩
  refine ⟨Node.root GOAL (GOAL.indexOf 0) 0 (hf GOAL),
    ⟨"success", 0, 1, 1⟩, ?_, rfl, rfl, rfl⟩
  have hpm : popMin [⟨Node.f (Node.root GOAL (GOAL.indexOf 0) 0 (hf GOAL)),
      0, Node.root GOAL (GOAL.indexOf 0) 0 (hf GOAL)⟩] =
      some (⟨Node.f (Node.root GOAL (GOAL.indexOf 0) 0 (hf GOAL)), 0,
        Node.root GOAL (GOAL.indexOf 0) 0 (hf GOAL)⟩, []) := rfl
  have hstep : astarStep hf timedOut 0 (initLoopState GOAL hf) =
      .done (some (Node.root GOAL (GOAL.indexOf 0) 0 (hf GOAL)),
        ⟨"success", 0, 1, 1⟩) := by
    simp [astarStep, initLoopState, htime, hpm, mkStats, Node.state]
  rw [astar, astarLoop, hstep]

/-! ### The loop level claims -/

theorem astarLoop_returned_valid {start : List Nat} {hf : List Nat → Nat}
    {timedOut : Nat → Bool} (hstart : ValidState start) :
    ∀ (fuel iter : Nat) (st : LoopState) (m : Node) (stats : Stats),
    Inv start hf st →
    astarLoop hf timedOut fuel iter st = some (some m, stats) →
    Node.valid start hf m ∧ m.state = GOAL := by
  intro fuel
  induction fuel with
  | zero =>
    intro iter st m stats _ h
    simp [astarLoop] at h
  | succ fuel ih =>
    intro iter st m stats hinv h
    rw [astarLoop] at h
    cases hstep : astarStep hf timedOut iter st with
    | next st1 =>
      rw [hstep] at h
      exact ih _ _ _ _ (astarStep_next_inv hstart hinv hstep) h
    | done r =>
      rw [hstep] at h
      simp only [Option.some.injEq] at h
      subst h
      unfold astarStep at hstep
      split at hstep
      · simp at hstep
      · split at hstep
        · simp at hstep
        · split at hstep
          · simp at hstep
          · rename_i pnpair pn rest hpm
            by_cases hg : pn.node.state = GOAL
            · simp only [hg, if_true, StepResult.done.injEq,
                Prod.mk.injEq] at hstep
              obtain ⟨hm, hstats⟩ := hstep
              have hmn : pn.node = m := by injection hm
              subst hmn
              have hpnmem : pn ∈ st.open_list :=
                (popMin_perm hpm).symm.subset (List.mem_cons_self _ _)
              exact ⟨(hinv.openOk pn hpnmem).1, hg⟩
            · simp [hg] at hstep

/-- C10 (implicit): the blank_index field always equals the position of 0
in the state: for every node in the frontier of any reachable loop state,
for the node returned by a successful run, and for every successor tuple
produced by generate_successors from a well-formed state. -/
theorem blank_index_invariant (start : List Nat) (hf : List Nat → Nat)
    (timedOut : Nat → Bool) (hperm : ValidState start) :
    (∀ (n : Nat) (st : LoopState),
      runSteps hf timedOut n 0 (initLoopState start hf) = some st →
      ∀ pn ∈ st.open_list, pn.node.blank_index = pn.node.state.indexOf 0) ∧
    (∀ (fuel : Nat) (m : Node) (stats : Stats),
      astar start hf timedOut fuel = some (some m, stats) →
      m.blank_index = m.state.indexOf 0) ∧
    (∀ (s : List Nat) (b : Nat), ValidState s → b < 25 → s.getD b 0 = 0 →
      ∀ t ∈ generate_successors s b, t.2.1 = t.1.indexOf 0) := by
  refine ⟨?_, ?_, ?_⟩
  · intro n st hrun pn hpn
    have hinv := runSteps_inv hperm n 0 _ st (inv_init hf hperm) hrun
    exact (valid_props hperm pn.node (hinv.openOk pn hpn).1).2.1
  · intro fuel m stats hrun
    have hv := astarLoop_returned_valid hperm fuel 0 _ m stats
      (inv_init hf hperm) hrun
    exact (valid_props hperm m hv.1).2.1
  · intro s b hs hb hblank t ht
    obtain ⟨hj, hjb, hswap⟩ := succ_unpack hb ht
    have hvt : ValidState t.1 := succ_validState hs hb ht
    have hzero : t.1.getD t.2.1 0 = 0 := by
      rw [hswap, swapTiles_getD_snd (by rw [hs.length]; exact hj)]
      exact hblank
    exact (hvt.indexOf_zero hj hzero).symm

/-- C2 (amended): when a node is popped from the frontier its g is at least
the recorded best-cost of its state (equality can fail for stale frontier
entries), and a best_g record is only replaced by a strictly smaller
value. -/
theorem best_g_pop_le_and_strict_decrease (start : List Nat)
    (hf : List Nat → Nat) (timedOut : Nat → Bool)
    (hperm : ValidState start) :
    (∀ (n : Nat) (st : LoopState) (pn : PriorityNode)
        (rest : List PriorityNode),
      runSteps hf timedOut n 0 (initLoopState start hf) = some st →
      popMin st.open_list = some (pn, rest) →
      ∃ v, dictLookup st.best_g pn.node.state = some v ∧ v ≤ pn.node.g) ∧
    (∀ (cur : Node) (st : LoopState) (succ : List Nat × Nat × String)
        (z : List Nat) (v v' : Nat),
      dictLookup st.best_g z = some v →
      dictLookup (processSuccessor hf cur st succ).best_g z = some v' →
      v' = v ∨ v' < v) := by
  constructor
  · intro n st pn rest hrun hpm
    have hinv := runSteps_inv hperm n 0 _ st (inv_init hf hperm) hrun
    have hpnmem : pn ∈ st.open_list :=
      (popMin_perm hpm).symm.subset (List.mem_cons_self _ _)
    exact (hinv.openOk pn hpnmem).2.2
  · intro cur st succ z v v' hzv hzv'
    by_cases hskip : ∃ w, dictLookup st.best_g succ.1 = some w ∧
        w ≤ cur.g + 1
    · rw [processSuccessor_skip hskip] at hzv'
      rw [hzv] at hzv'
      have hvv : v = v' := by injection hzv'
      exact Or.inl hvv.symm
    · have hpush : ∀ w, dictLookup st.best_g succ.1 = some w →
          cur.g + 1 < w := by
        intro w hw
        by_contra hc
        exact hskip ⟨w, hw, by omega⟩
      rw [processSuccessor_push hpush] at hzv'
      by_cases hz0 : z = succ.1
      · subst hz0
        rw [dictLookup_insert_self] at hzv'
        have hlt := hpush v hzv
        have : cur.g + 1 = v' := by injection hzv'
        omega
      · rw [dictLookup_insert_ne _ _ _ _ hz0, hzv] at hzv'
        have hvv : v = v' := by injection hzv'
        exact Or.inl hvv.symm

/-! ### C2 counterexample: a stale pop on a concrete run -/

/-- A concrete solvable start state on which the Manhattan-heuristic run
pops a stale frontier entry. -/
def startC2 : List Nat :=
  [1, 2, 3, 5, 9, 6, 7, 8, 4, 10, 11, 12, 13, 14, 15,
   16, 17, 18, 20, 24, 21, 22, 23, 0, 19]

theorem stalePopSearch_sound (hf : List Nat → Nat) (timedOut : Nat → Bool) :
    ∀ (fuel iter : Nat) (st : LoopState),
    stalePopSearch hf timedOut fuel iter st = true →
    ∃ (n : Nat) (st' : LoopState),
      runSteps hf timedOut n iter st = some st' ∧
      poppedStale st' = true := by
  intro fuel
  induction fuel with
  | zero =>
    intro iter st h
    simp [stalePopSearch] at h
  | succ fuel ih =>
    intro iter st h
    rw [stalePopSearch] at h
    cases hps : poppedStale st with
    | true => exact ⟨0, st, rfl, hps⟩
    | false =>
      rw [hps, Bool.false_or] at h
      cases hstep : astarStep hf timedOut iter st with
      | done r => rw [hstep] at h; simp at h
      | next st1 =>
        rw [hstep] at h
        obtain ⟨n, st', hrun, hstale⟩ := ih _ _ h
        exact ⟨n + 1, st', by rw [runSteps, hstep]; exact hrun, hstale⟩

/-- C2 counterexample: a run of astar on a solvable permutation start with
the Manhattan heuristic reaches a loop state whose next pop carries a g
different from the best_g record of its state, refuting the claimed
pop-time equality. -/
theorem stale_pop_counterexample :
    ValidState startC2 ∧ is_solvable startC2 = true ∧
    ∃ (n : Nat) (st : LoopState),
      runSteps h2_manhattan (fun _ => false) n 0
        (initLoopState startC2 h2_manhattan) = some st ∧
      poppedStale st = true :=
  ⟨by decide, by decide,
    stalePopSearch_sound h2_manhattan (fun _ => false) 33 0
      (initLoopState startC2 h2_manhattan) (by decide)⟩

/-! ### Witnesses -/

theorem astar_success_optimal_witness :
    ValidState GOAL ∧ is_solvable GOAL = true ∧
    astar GOAL h1_misplaced (fun _ => false) 1 =
      some (some (Node.root GOAL 24 0 0), ⟨"success", 0, 1, 1⟩) ∧
    (applyMoves GOAL (reconstruct_path (Node.root GOAL 24 0 0)) =
      some GOAL ∧
    ∀ ms, applyMoves GOAL ms = some GOAL →
      (reconstruct_path (Node.root GOAL 24 0 0)).length ≤ ms.length) :=
  ⟨by decide, by decide, by decide,
    astar_success_optimal GOAL h1_misplaced (fun _ => false) 1
      (Node.root GOAL 24 0 0) ⟨"success", 0, 1, 1⟩ (by decide) (by decide)
      (Or.inl rfl) (by decide) rfl⟩

theorem generate_successors_spec_witness :
    ValidState GOAL ∧ 24 < 25 ∧ GOAL.getD 24 0 = 0 ∧
    ((2 ≤ (generate_successors GOAL 24).length ∧
      (generate_successors GOAL 24).length ≤ 4) ∧
    ((generate_successors GOAL 24).map (fun t => t.2.2)).Sublist
      ["U", "D", "L", "R"] ∧
    (generate_successors GOAL 24).map (fun t => t.2.2) =
      (if 0 < 24 / 5 then ["U"] else []) ++
      (if 24 / 5 < 4 then ["D"] else []) ++
      (if 0 < 24 % 5 then ["L"] else []) ++
      (if 24 % 5 < 4 then ["R"] else []) ∧
    ∀ t ∈ generate_successors GOAL 24,
      t.1.Perm GOAL ∧ t.2.1 < 25 ∧ t.2.1 ≠ 24 ∧
      ((t.2.1 / 5 = 24 / 5 ∧ (t.2.1 + 1 = 24 ∨ t.2.1 = 24 + 1)) ∨
        (t.2.1 % 5 = 24 % 5 ∧ (t.2.1 + 5 = 24 ∨ t.2.1 = 24 + 5))) ∧
      ((t.2.2 = "U" ∧ t.2.1 + 5 = 24) ∨ (t.2.2 = "D" ∧ t.2.1 = 24 + 5) ∨
        (t.2.2 = "L" ∧ t.2.1 + 1 = 24 ∧ 0 < 24 % 5) ∨
        (t.2.2 = "R" ∧ t.2.1 = 24 + 1 ∧ 24 % 5 < 4)) ∧
      t.1.getD 24 0 = GOAL.getD t.2.1 0 ∧
      t.1.getD t.2.1 0 = GOAL.getD 24 0 ∧
      t.1.getD 24 0 ≠ GOAL.getD 24 0 ∧
      t.1.getD t.2.1 0 ≠ GOAL.getD t.2.1 0 ∧
      ∀ i, i ≠ 24 → i ≠ t.2.1 → t.1.getD i 0 = GOAL.getD i 0) :=
  ⟨by decide, by decide, by decide,
    generate_successors_spec GOAL 24 (by decide) (by decide) (by decide)⟩

theorem is_solvable_spec_witness :
    ValidState GOAL ∧
    ((is_solvable GOAL = true ↔
      (inversionPairs (GOAL.filter (fun x => decide (x ≠ 0)))).card % 2
        = 0) ∧
    is_solvable GOAL = true ∧ inversion_count GOAL = 0) :=
  ⟨by decide, is_solvable_spec GOAL (by decide)⟩

theorem h1_le_h2_witness :
    ValidState GOAL ∧ (h1_misplaced GOAL ≤ h2_manhattan GOAL ∧
      h1_misplaced GOAL ≤ 24 ∧ 0 ≤ h2_manhattan GOAL) :=
  ⟨by decide, h1_le_h2 GOAL (by decide)⟩

theorem heuristics_consistent_witness :
    ValidState GOAL ∧ 24 < 25 ∧ GOAL.getD 24 0 = 0 ∧
    ((∀ t ∈ generate_successors GOAL 24,
      h1_misplaced GOAL ≤ 1 + h1_misplaced t.1 ∧
      h2_manhattan GOAL ≤ 1 + h2_manhattan t.1) ∧
    h1_misplaced GOAL = 0 ∧ h2_manhattan GOAL = 0) :=
  ⟨by decide, by decide, by decide,
    heuristics_consistent GOAL 24 (by decide) (by decide) (by decide)⟩

theorem reconstruct_path_spec_witness :
    gConsistent (Node.child GOAL 24 1 0 "R" (Node.root GOAL 23 0 1)) ∧
    (reconstruct_path (Node.child GOAL 24 1 0 "R" (Node.root GOAL 23 0 1)) =
      forwardMoves (Node.child GOAL 24 1 0 "R" (Node.root GOAL 23 0 1)) ∧
    (reconstruct_path
      (Node.child GOAL 24 1 0 "R" (Node.root GOAL 23 0 1))).length =
      (Node.child GOAL 24 1 0 "R" (Node.root GOAL 23 0 1)).g) :=
  ⟨by exact ⟨rfl, rfl⟩,
    (reconstruct_path_spec
      (Node.child GOAL 24 1 0 "R" (Node.root GOAL 23 0 1))).1,
    (reconstruct_path_spec
      (Node.child GOAL 24 1 0 "R" (Node.root GOAL 23 0 1))).2
      (by exact ⟨rfl, rfl⟩)⟩

theorem successor_processing_spec_witness :
    ((∃ v, dictLookup (initLoopState GOAL h1_misplaced).best_g GOAL =
        some v ∧ v ≤ (Node.root GOAL 24 0 0).g + 1) ∧
      processSuccessor h1_misplaced (Node.root GOAL 24 0 0)
        (initLoopState GOAL h1_misplaced) (GOAL, 23, "L") =
        initLoopState GOAL h1_misplaced) ∧
    processSuccessor h1_misplaced (Node.root GOAL 24 0 0)
        (initLoopState GOAL h1_misplaced) ([], 0, "U") =
      { initLoopState GOAL h1_misplaced with
        best_g := dictInsert (initLoopState GOAL h1_misplaced).best_g [] 1
        open_list := (initLoopState GOAL h1_misplaced).open_list ++
          [⟨1 + h1_misplaced [], 1,
            Node.child [] 0 1 (h1_misplaced []) "U"
              (Node.root GOAL 24 0 0)⟩]
        counter := 2
        generated := 2 } :=
  ⟨⟨⟨0, by decide, by decide⟩,
    (successor_processing_spec h1_misplaced (Node.root GOAL 24 0 0)
      (initLoopState GOAL h1_misplaced) (GOAL, 23, "L")).1
      ⟨0, by decide, by decide⟩⟩,
    (successor_processing_spec h1_misplaced (Node.root GOAL 24 0 0)
      (initLoopState GOAL h1_misplaced) ([], 0, "U")).2
      (fun v hv => by
        rw [show dictLookup (initLoopState GOAL h1_misplaced).best_g []
          = none from by decide] at hv
        cases hv)⟩

theorem astar_goal_start_witness :
    0 < 1 ∧ (fun _ : Nat => false) 0 = false ∧
    ∃ (m : Node) (stats : Stats),
      astar GOAL h1_misplaced (fun _ => false) 1 = some (some m, stats) ∧
      stats.status = "success" ∧ stats.expanded = 0 ∧
      reconstruct_path m = [] :=
  ⟨by decide, rfl,
    astar_goal_start h1_misplaced (fun _ => false) 1 (by decide) rfl⟩

theorem blank_index_invariant_witness :
    ValidState GOAL ∧
    ((∀ (n : Nat) (st : LoopState),
      runSteps h1_misplaced (fun _ => false) n 0
        (initLoopState GOAL h1_misplaced) = some st →
      ∀ pn ∈ st.open_list,
        pn.node.blank_index = pn.node.state.indexOf 0) ∧
    (∀ (fuel : Nat) (m : Node) (stats : Stats),
      astar GOAL h1_misplaced (fun _ => false) fuel =
        some (some m, stats) →
      m.blank_index = m.state.indexOf 0) ∧
    (∀ (s : List Nat) (b : Nat), ValidState s → b < 25 → s.getD b 0 = 0 →
      ∀ t ∈ generate_successors s b, t.2.1 = t.1.indexOf 0)) :=
  ⟨by decide,
    blank_index_invariant GOAL h1_misplaced (fun _ => false) (by decide)⟩

theorem best_g_pop_witness :
    ValidState GOAL ∧
    ((∀ (n : Nat) (st : LoopState) (pn : PriorityNode)
        (rest : List PriorityNode),
      runSteps h1_misplaced (fun _ => false) n 0
        (initLoopState GOAL h1_misplaced) = some st →
      popMin st.open_list = some (pn, rest) →
      ∃ v, dictLookup st.best_g pn.node.state = some v ∧
        v ≤ pn.node.g) ∧
    (∀ (cur : Node) (st : LoopState) (succ : List Nat × Nat × String)
        (z : List Nat) (v v' : Nat),
      dictLookup st.best_g z = some v →
      dictLookup (processSuccessor h1_misplaced cur st succ).best_g z =
        some v' →
      v' = v ∨ v' < v)) :=
  ⟨by decide,
    best_g_pop_le_and_strict_decrease GOAL h1_misplaced (fun _ => false)
      (by decide)⟩

end HW2
